import Mathlib

/-!
Verification of the TerraLands hex-grid engine.

This file gives a shallow embedding of the algorithmic core of the
TerraLands repository (src/web/src/utils/hexGrid.ts,
src/web/src/engine/Pathfinding.ts, src/web/src/engine/ECS.ts) and proves
or refutes the specification claims about it.  JavaScript numbers are
modelled as exact values: integer-valued quantities as ℤ/ℕ, fractional
movement costs as ℚ (with Infinity as ⊤ in WithTop ℚ), and the
pixel-space geometry as ℝ.  JavaScript Map/Set objects are modelled as
association lists with first-match lookup and replace-or-append update,
which reproduces their observable get/set/has behaviour.
-/

set_option maxHeartbeats 1000000

/-! ## Core data model (src/web/src/types/game.ts) -/

/-- Axial hex coordinates; `x` is the axial q column, `y` the axial r row. -/
structure FieldCoords where
  x : ℤ
  y : ℤ
deriving DecidableEq

inductive TerrainType : Type where
  | water
  | grass
  | desert
  | mountain
  | snow
  | swamp
deriving DecidableEq

inductive ResourceType : Type where
  | none
  | coal
  | iron
  | gold
  | granite
  | water
deriving DecidableEq

structure MapDimensions where
  width : ℤ
  height : ℤ
deriving DecidableEq

structure MapField where
  coords : FieldCoords
  terrain : TerrainType
  resource : ResourceType
  resourceAmount : ℕ
  height : ℤ
  owner : Option ℤ
deriving DecidableEq

/-- The game map: dimensions plus the row-major field grid.  The `objects`
registry of the TypeScript interface is omitted: none of the verified
code reads it. -/
structure GameMap where
  dimensions : MapDimensions
  fields : List (List MapField)
deriving DecidableEq

/-! ## Hex grid utilities (src/web/src/utils/hexGrid.ts) -/

structure Point where
  x : ℝ
  y : ℝ

structure HexOrientation where
  f0 : ℝ
  f1 : ℝ
  f2 : ℝ
  f3 : ℝ
  b0 : ℝ
  b1 : ℝ
  b2 : ℝ
  b3 : ℝ
  startAngle : ℝ

/-- Flat-top hex orientation constants (HexGrid.FLAT_ORIENTATION). -/
noncomputable def FLAT_ORIENTATION : HexOrientation :=
  ⟨3 / 2, 0, Real.sqrt 3 / 2, Real.sqrt 3, 2 / 3, 0, -(1 / 3), Real.sqrt 3 / 3, 0⟩

/-- HexGrid.hexToPixel: axial coordinates to pixel position. -/
noncomputable def hexToPixel (coords : FieldCoords) (size : ℝ) : Point :=
  ⟨(FLAT_ORIENTATION.f0 * (coords.x : ℝ) + FLAT_ORIENTATION.f1 * (coords.y : ℝ)) * size,
   (FLAT_ORIENTATION.f2 * (coords.x : ℝ) + FLAT_ORIENTATION.f3 * (coords.y : ℝ)) * size⟩

/-- HexGrid.hexRound: round fractional axial coordinates to the nearest hex.
`round` is round-half-up, matching JavaScript Math.round on the reals. -/
noncomputable def hexRound (hx hy : ℝ) : FieldCoords :=
  let q : ℤ := round hx
  let r : ℤ := round hy
  let s : ℤ := round (-hx - hy)
  let qDiff : ℝ := |(q : ℝ) - hx|
  let rDiff : ℝ := |(r : ℝ) - hy|
  let sDiff : ℝ := |(s : ℝ) - (-hx - hy)|
  if qDiff > rDiff ∧ qDiff > sDiff then ⟨-r - s, r⟩
  else if rDiff > sDiff then ⟨q, -q - s⟩
  else ⟨q, r⟩

/-- HexGrid.pixelToHex: pixel position to axial coordinates. -/
noncomputable def pixelToHex (point : Point) (size : ℝ) : FieldCoords :=
  let ptx : ℝ := point.x / size
  let pty : ℝ := point.y / size
  let q : ℝ := FLAT_ORIENTATION.b0 * ptx + FLAT_ORIENTATION.b1 * pty
  let r : ℝ := FLAT_ORIENTATION.b2 * ptx + FLAT_ORIENTATION.b3 * pty
  hexRound q r

/-- HexGrid.getNeighbors: the six axial direction offsets, in source order. -/
def getNeighbors (coords : FieldCoords) : List FieldCoords :=
  [⟨coords.x + 1, coords.y⟩, ⟨coords.x + 1, coords.y - 1⟩, ⟨coords.x, coords.y - 1⟩,
   ⟨coords.x - 1, coords.y⟩, ⟨coords.x - 1, coords.y + 1⟩, ⟨coords.x, coords.y + 1⟩]

/-- Numerator of HexGrid.hexDistance: |Δq| + |Δq+Δr| + |Δr|. -/
def hexDistNum (a b : FieldCoords) : ℕ :=
  (a.x - b.x).natAbs + (a.x + a.y - b.x - b.y).natAbs + (a.y - b.y).natAbs

/-- HexGrid.hexDistance: (|Δq| + |Δq+Δr| + |Δr|) / 2, an exact rational
(the numerator is always even, so the JavaScript division is exact). -/
def hexDistance (a b : FieldCoords) : ℚ :=
  (hexDistNum a b : ℚ) / 2

/-- The ascending integer list lo, lo+1, ..., hi (empty when hi < lo),
modelling a JavaScript for-loop from lo to hi inclusive. -/
def intRange (lo hi : ℤ) : List ℤ :=
  (List.range (hi + 1 - lo).toNat).map (fun i : ℕ => lo + (i : ℤ))

/-- HexGrid.hexesInRange: all hexes within the given range of a center. -/
def hexesInRange (center : FieldCoords) (range : ℤ) : List FieldCoords :=
  (intRange (-range) range).flatMap (fun q =>
    (intRange (max (-range) (-q - range)) (min range (-q + range))).map
      (fun r => ⟨center.x + q, center.y + r⟩))

/-- Offset (col/row) coordinates. -/
structure OffsetCoords where
  col : ℤ
  row : ℤ
deriving DecidableEq

/-- HexGrid.offsetToAxial.  `row % 2` is the euclidean remainder, which is
what the JavaScript bitwise `row & 1` computes for 32-bit integers. -/
def offsetToAxial (col row : ℤ) : FieldCoords :=
  ⟨col - (row - row % 2) / 2, row⟩

/-- HexGrid.axialToOffset. -/
def axialToOffset (coords : FieldCoords) : OffsetCoords :=
  ⟨coords.x + (coords.y - coords.y % 2) / 2, coords.y⟩

/-! ## Pathfinder (src/web/src/engine/Pathfinding.ts) -/

/-- Pathfinder.getField: field lookup through offset coordinates, with the
source's own bounds guards (out of range yields no field). -/
def getField (m : GameMap) (coords : FieldCoords) : Option MapField :=
  let off := axialToOffset coords
  if 0 ≤ off.row then
    match m.fields.get? off.row.toNat with
    | Option.none => Option.none
    | Option.some rowFields =>
      if 0 ≤ off.col then rowFields.get? off.col.toNat else Option.none
  else Option.none

/-- Pathfinder.isValidCoord: bounds check against the map dimensions. -/
def isValidCoord (m : GameMap) (coords : FieldCoords) : Bool :=
  let off := axialToOffset coords
  decide (0 ≤ off.col) && decide (0 ≤ off.row) &&
    decide (off.row < m.dimensions.height) && decide (off.col < m.dimensions.width)

/-- Pathfinder.isWalkable: a field exists and its terrain is not water. -/
def isWalkable (m : GameMap) (coords : FieldCoords) : Bool :=
  match getField m coords with
  | Option.none => false
  | Option.some field => decide (field.terrain ≠ TerrainType.water)

/-- Terrain base movement cost from Pathfinder.getMovementCost's switch.
The water case is never consulted: getMovementCost returns ⊤ for water
before reading the base cost. -/
def terrainBaseCost : TerrainType → ℚ
  | TerrainType.water => 1
  | TerrainType.grass => 1
  | TerrainType.desert => 12 / 10
  | TerrainType.mountain => 2
  | TerrainType.snow => 15 / 10
  | TerrainType.swamp => 18 / 10

/-- Pathfinder.getMovementCost: terrain base cost of the destination field
plus 0.5 per unit of height difference; Infinity (⊤) for a missing field
or water destination. -/
def getMovementCost (m : GameMap) (fromC toC : FieldCoords) : WithTop ℚ :=
  match getField m toC with
  | Option.none => ⊤
  | Option.some field =>
    match field.terrain with
    | TerrainType.water => ⊤
    | t =>
      match getField m fromC with
      | Option.none => ((terrainBaseCost t : ℚ) : WithTop ℚ)
      | Option.some fromField =>
        ((terrainBaseCost t + ((field.height - fromField.height).natAbs : ℚ) * (1 / 2) : ℚ) :
          WithTop ℚ)

/-- A PathNode of the A* search: coords, gCost, hCost, fCost and the
parent link (the TypeScript object reference becomes a nested value). -/
inductive ANode : Type where
  | mk : FieldCoords → WithTop ℚ → WithTop ℚ → WithTop ℚ → Option ANode → ANode

def ANode.coords : ANode → FieldCoords
  | .mk c _ _ _ _ => c

def ANode.gCost : ANode → WithTop ℚ
  | .mk _ g _ _ _ => g

def ANode.hCost : ANode → WithTop ℚ
  | .mk _ _ h _ _ => h

def ANode.fCost : ANode → WithTop ℚ
  | .mk _ _ _ f _ => f

def ANode.parent : ANode → Option ANode
  | .mk _ _ _ _ p => p

/-- Pathfinder.reconstructPath: follow parent links, producing the path
from the start node to this node. -/
def reconstructPath : ANode → List FieldCoords
  | .mk c _ _ _ Option.none => [c]
  | .mk c _ _ _ (Option.some par) => reconstructPath par ++ [c]

/-- The linear scan for the open node of minimal fCost (first strict
improvement wins, so the first occurrence of the minimum is selected). -/
def findMinIdxAux : ℕ → WithTop ℚ → ℕ → List ANode → ℕ
  | best, _, _, [] => best
  | best, bestF, i, n :: rest =>
    if n.fCost < bestF then findMinIdxAux i n.fCost (i + 1) rest
    else findMinIdxAux best bestF (i + 1) rest

def findMinIdx : List ANode → ℕ
  | [] => 0
  | n :: rest => findMinIdxAux 0 n.fCost 1 rest

/-- One neighbor step of the A* expansion loop: skip invalid, closed or
non-walkable neighbors; otherwise update the matching open node in place
when the new gCost is strictly better, or append a new node. -/
def relaxNeighbor (m : GameMap) (goal : FieldCoords) (closed : List FieldCoords)
    (cur : ANode) (acc : List ANode) (nc : FieldCoords) : List ANode :=
  if ¬(isValidCoord m nc = true) ∨ nc ∈ closed then acc
  else if ¬(isWalkable m nc = true) then acc
  else
    let g : WithTop ℚ := cur.gCost + getMovementCost m cur.coords nc
    match acc.findIdx? (fun node => decide (node.coords = nc)) with
    | Option.some j =>
      match acc.get? j with
      | Option.none => acc
      | Option.some old =>
        if g < old.gCost then
          acc.set j (ANode.mk nc g old.hCost (g + old.hCost) (Option.some cur))
        else acc
    | Option.none =>
      acc ++ [ANode.mk nc g ((hexDistance nc goal : ℚ) : WithTop ℚ)
        (g + ((hexDistance nc goal : ℚ) : WithTop ℚ)) (Option.some cur)]

/-- The A* main loop; the fuel counts the remaining iterations of the
source's `while (openList.length > 0 && iterations < maxIterations)`. -/
def aStarLoop (m : GameMap) (goal : FieldCoords) :
    ℕ → List ANode → List FieldCoords → Option (List FieldCoords)
  | 0, _, _ => Option.none
  | _ + 1, [], _ => Option.none
  | fuel + 1, n0 :: rest0, closed =>
    let openList := n0 :: rest0
    let ci := findMinIdx openList
    match openList.get? ci with
    | Option.none => Option.none
    | Option.some current =>
      if current.coords = goal then Option.some (reconstructPath current)
      else
        let closed2 := current.coords :: closed
        let openRest := openList.eraseIdx ci
        let openNext :=
          (getNeighbors current.coords).foldl (relaxNeighbor m goal closed2 current) openRest
        aStarLoop m goal fuel openNext closed2

def maxIterations : ℕ := 10000

/-- Pathfinder.findPath. -/
def findPath (m : GameMap) (start goal : FieldCoords) : Option (List FieldCoords) :=
  if ¬(isValidCoord m start = true ∧ isValidCoord m goal = true) then Option.none
  else if start = goal then Option.some [start]
  else
    let h0 : WithTop ℚ := ((hexDistance start goal : ℚ) : WithTop ℚ)
    let startNode := ANode.mk start 0 h0 (0 + h0) Option.none
    aStarLoop m goal maxIterations [startNode] []

/-! ## Association-list model of JavaScript Map -/

/-- Lookup by key, first match. -/
def alookup {κ α : Type} [DecidableEq κ] (l : List (κ × α)) (k : κ) : Option α :=
  (l.find? (fun kv => decide (kv.1 = k))).map (fun kv => kv.2)

/-- Map.set: replace the stored value if the key is present, otherwise
append the new binding. -/
def mapSet {κ α : Type} [DecidableEq κ] (l : List (κ × α)) (k : κ) (v : α) : List (κ × α) :=
  if l.any (fun kv => decide (kv.1 = k)) then
    l.map (fun kv => if kv.1 = k then (k, v) else kv)
  else l ++ [(k, v)]

/-! ## Pathfinder.getReachableHexes -/

/-- One neighbor step of the reachability flood: push the neighbor (and
lower its visited cost) when the new cost is within budget and strictly
better than any previously recorded cost. -/
def reachRelax (m : GameMap) (maxCost : ℚ) (curC : FieldCoords) (curCost : WithTop ℚ)
    (st : List (FieldCoords × WithTop ℚ) × List (FieldCoords × WithTop ℚ)) (nc : FieldCoords) :
    List (FieldCoords × WithTop ℚ) × List (FieldCoords × WithTop ℚ) :=
  if ¬(isValidCoord m nc = true) ∨ ¬(isWalkable m nc = true) then st
  else
    let newCost := curCost + getMovementCost m curC nc
    if newCost ≤ (maxCost : WithTop ℚ) then
      match alookup st.2 nc with
      | Option.none => (st.1 ++ [(nc, newCost)], mapSet st.2 nc newCost)
      | Option.some prev =>
        if newCost < prev then (st.1 ++ [(nc, newCost)], mapSet st.2 nc newCost)
        else st
    else st

/-- The flood-fill loop of getReachableHexes, returning the final
(queue, visited, reachable) state.  The source's while loop has no
iteration cap; `reachFuel` below supplies enough fuel for the queue to
drain (proved in the theorems), so the fuelled loop computes the same
reachable list as the unbounded loop. -/
def reachLoop (m : GameMap) (maxCost : ℚ) :
    ℕ → List (FieldCoords × WithTop ℚ) → List (FieldCoords × WithTop ℚ) → List FieldCoords →
    List (FieldCoords × WithTop ℚ) × List (FieldCoords × WithTop ℚ) × List FieldCoords
  | 0, queue, visited, reachable => (queue, visited, reachable)
  | _ + 1, [], visited, reachable => ([], visited, reachable)
  | fuel + 1, cur :: rest, visited, reachable =>
    let reach2 := if cur.2 ≤ (maxCost : WithTop ℚ) then reachable ++ [cur.1] else reachable
    let st := (getNeighbors cur.1).foldl (reachRelax m maxCost cur.1 cur.2) (rest, visited)
    reachLoop m maxCost fuel st.1 st.2 reach2

/-- Fuel bound: all costs are non-negative multiples of 1/10 bounded by
maxCost, so each map cell can be re-pushed at most 10·maxCost+1 times. -/
def reachFuel (m : GameMap) (maxCost : ℚ) : ℕ :=
  m.dimensions.width.toNat * m.dimensions.height.toNat * ((10 * maxCost).floor.toNat + 1) + 2

/-- Pathfinder.getReachableHexes. -/
def getReachableHexes (m : GameMap) (start : FieldCoords) (maxCost : ℚ) : List FieldCoords :=
  (reachLoop m maxCost (reachFuel m maxCost) [(start, 0)] [(start, 0)] []).2.2

/-! ## Walkable paths (the comparison class for optimality claims) -/

/-- One legal movement step: into one of the six neighbors, which must be
inside the map bounds and walkable — exactly the neighbor filter of the
search loops.  The source hex itself is never checked. -/
def WalkStep (m : GameMap) (a b : FieldCoords) : Prop :=
  b ∈ getNeighbors a ∧ isValidCoord m b = true ∧ isWalkable m b = true

/-- A walkable path from s to g: starts at s, ends at g, every
consecutive pair a legal movement step. -/
def IsWalkablePath (m : GameMap) (s g : FieldCoords) (p : List FieldCoords) : Prop :=
  p.head? = Option.some s ∧ p.getLast? = Option.some g ∧ List.Chain' (WalkStep m) p

/-- Total movement cost of a path: sum of getMovementCost over the steps. -/
def pathCost (m : GameMap) : List FieldCoords → WithTop ℚ
  | [] => 0
  | [_] => 0
  | a :: b :: rest => getMovementCost m a b + pathCost m (b :: rest)

/-! ## Entity component system (src/web/src/engine/ECS.ts) -/

inductive BuildingSize : Type where
  | small
  | medium
  | big
deriving DecidableEq

/-- The closed set of component variants; each carries the fields of the
corresponding TypeScript interface. -/
inductive Component : Type where
  | position (coords : FieldCoords)
  | sprite (textureKey : String) (visible : Bool) (zIndex : ℤ)
  | movement (speed : ℚ) (path : Option (List FieldCoords)) (currentPathIndex : ℕ)
      (isMoving : Bool)
  | health (current maximum : ℚ)
  | inventory (items : List (String × ℕ)) (capacity : ℕ)
  | worker (workerType : String) (currentTask : Option String) (efficiency : ℚ)
  | building (buildingType : String) (size : BuildingSize) (isConstructed : Bool)
      (constructionProgress : ℚ)
  | production (producing : Option String) (progress : ℚ)
      (inputWares outputWares : List (String × ℕ))
  | owner (playerId : ℤ)
deriving DecidableEq

/-- The `type` discriminator string of a component. -/
def Component.ctag : Component → String
  | .position _ => "position"
  | .sprite _ _ _ => "sprite"
  | .movement _ _ _ _ => "movement"
  | .health _ _ => "health"
  | .inventory _ _ => "inventory"
  | .worker _ _ _ => "worker"
  | .building _ _ _ _ => "building"
  | .production _ _ _ _ => "production"
  | .owner _ => "owner"

/-- An entity: id plus its component map keyed by the type tag. -/
structure Entity where
  id : String
  components : List (String × Component)
deriving DecidableEq

def Entity.getComponent (e : Entity) (t : String) : Option Component :=
  alookup e.components t

def Entity.addComponent (e : Entity) (c : Component) : Entity :=
  ⟨e.id, mapSet e.components c.ctag c⟩

def Entity.hasComponent (e : Entity) (t : String) : Bool :=
  (e.getComponent t).isSome

def Entity.removeComponent (e : Entity) (t : String) : Entity :=
  ⟨e.id, e.components.filter (fun kv => decide (kv.1 ≠ t))⟩

/-- MovementSystem.update, restricted to a single entity (the system maps
this transformation over all entities; entities are independent). -/
def movementUpdateEntity (e : Entity) : Entity :=
  match e.getComponent ("movement"), e.getComponent ("position") with
  | Option.some (Component.movement speed path idx moving),
    Option.some (Component.position coords) =>
    if ¬(moving = true) ∨ path = Option.none then e
    else
      match path with
      | Option.none => e
      | Option.some ps =>
        match ps.get? idx with
        | Option.none => e.addComponent (Component.movement speed Option.none idx false)
        | Option.some target =>
          if coords = target then
            if ps.length ≤ idx + 1 then
              e.addComponent (Component.movement speed Option.none 0 false)
            else
              e.addComponent (Component.movement speed (Option.some ps) (idx + 1) moving)
          else
            e.addComponent (Component.position target)
  | _, _ => e

/-- MovementSystem.update over the entity list: one simulation tick of the
Movement system. -/
def movementSystemUpdate (entities : List Entity) : List Entity :=
  entities.map movementUpdateEntity

/-- The id string allocated for counter value n: `entity_${n}`. -/
def mkEntityId (n : ℕ) : String :=
  ("entity_") ++ toString n

/-- The ECS World: entity map plus the id counter. -/
structure World where
  entities : List (String × Entity)
  nextEntityId : ℕ
deriving DecidableEq

/-- World.createEntity: allocate `entity_${nextEntityId++}`. -/
def World.createEntity (w : World) : Entity × World :=
  let i := mkEntityId w.nextEntityId
  let e : Entity := ⟨i, []⟩
  (e, ⟨mapSet w.entities i e, w.nextEntityId + 1⟩)

/-- World.removeEntity. -/
def World.removeEntity (w : World) (i : String) : World :=
  ⟨w.entities.filter (fun kv => decide (kv.1 ≠ i)), w.nextEntityId⟩

/-- World.clear: drops all entities and resets the id counter to 0. -/
def World.clear (_w : World) : World :=
  ⟨[], 0⟩

/-- The World operations relevant to id freshness. -/
inductive WorldOp : Type where
  | create
  | remove (i : String)
  | clearAll
deriving DecidableEq

/-- Apply one operation, returning the created ids (one for create). -/
def applyOp (w : World) (op : WorldOp) : World × List String :=
  match op with
  | WorldOp.create =>
    let r := w.createEntity
    (r.2, [r.1.id])
  | WorldOp.remove i => (w.removeEntity i, [])
  | WorldOp.clearAll => (w.clear, [])

/-- Run a session trace of operations, collecting all created ids. -/
def runOps : World → List WorldOp → World × List String
  | w, [] => (w, [])
  | w, op :: ops =>
    let r := applyOp w op
    let rest := runOps r.1 ops
    (rest.1, r.2 ++ rest.2)

/-- The state of a freshly constructed World. -/
def initialWorld : World :=
  ⟨[], 0⟩

/-! ## Decimal-string helpers (injectivity of entity ids) -/

def digitVal (c : Char) : ℕ :=
  c.toNat - 48

def parseDigits (l : List Char) : ℕ :=
  l.foldl (fun a c => 10 * a + digitVal c) 0

/-! ## Concrete maps and entities used by witnesses and counterexamples -/

def mkField (t : TerrainType) (h : ℤ) (c : FieldCoords) : MapField :=
  ⟨c, t, ResourceType.none, 0, h, Option.none⟩

def grassRow (row : ℤ) (w : ℕ) : List MapField :=
  (List.range w).map (fun c => mkField TerrainType.grass 0 (offsetToAxial (c : ℤ) row))

/-- 3×3 all-grass, zero-elevation map (spec scenario). -/
def map3 : GameMap :=
  ⟨⟨3, 3⟩, [grassRow 0 3, grassRow 1 3, grassRow 2 3]⟩

/-- Same map but the field at (1,0) is water (spec detour scenario). -/
def map3W : GameMap :=
  ⟨⟨3, 3⟩,
   [[mkField TerrainType.grass 0 ⟨0, 0⟩, mkField TerrainType.water 0 ⟨1, 0⟩,
     mkField TerrainType.grass 0 ⟨2, 0⟩],
    grassRow 1 3, grassRow 2 3]⟩

/-- 3×3 map with an expensive mountain ridge at (1,0) (height 4): the hex
(2,0) is first discovered through the ridge at cost 7 and later through
the grass detour at cost 3, so the flood fill emits it twice. -/
def mapDup : GameMap :=
  ⟨⟨3, 3⟩,
   [[mkField TerrainType.grass 0 ⟨0, 0⟩, mkField TerrainType.mountain 4 ⟨1, 0⟩,
     mkField TerrainType.grass 0 ⟨2, 0⟩],
    grassRow 1 3, grassRow 2 3]⟩

/-- 2×1 map whose start field (0,0) is water. -/
def mapWS : GameMap :=
  ⟨⟨2, 1⟩, [[mkField TerrainType.water 0 ⟨0, 0⟩, mkField TerrainType.grass 0 ⟨1, 0⟩]]⟩

/-- Entity with a 3-waypoint path starting at its own position. -/
def entC3 : Entity :=
  ⟨mkEntityId 0,
   [(("position"), Component.position ⟨0, 0⟩),
    (("movement"),
      Component.movement 2 (Option.some [⟨0, 0⟩, ⟨1, 0⟩, ⟨2, 0⟩]) 0 true)]⟩

/-! ## Specification-side definitions for the reachability proofs -/

/-- The index of a cost on the 1/10-granularity grid (all movement costs
are non-negative multiples of 1/10); ⊤ is mapped to 0 (never used on ⊤). -/
def costIdx (c : WithTop ℚ) : ℕ :=
  (10 * (WithTop.untop' 0 c)).floor.toNat

/-- The Finset of coordinates accepted by isValidCoord. -/
def validCoordFinset (m : GameMap) : Finset FieldCoords :=
  ((Finset.Icc 0 (m.dimensions.width - 1)) ×ˢ (Finset.Icc 0 (m.dimensions.height - 1))).image
    (fun p => offsetToAxial p.1 p.2)

/-- Remaining re-push budget of one hex: how many times its visited cost
can still strictly decrease on the 1/10 grid. -/
def reachResidual (maxCost : ℚ) (vis : List (FieldCoords × WithTop ℚ)) (v : FieldCoords) : ℕ :=
  match alookup vis v with
  | Option.none => (10 * maxCost).floor.toNat + 1
  | Option.some c => costIdx c

/-- Termination measure of the reachability flood: total remaining
re-push budget plus the queue length; it strictly decreases each
iteration. -/
def reachMeasure (m : GameMap) (maxCost : ℚ) (qu vis : List (FieldCoords × WithTop ℚ)) : ℕ :=
  (∑ v ∈ validCoordFinset m, reachResidual maxCost vis v) + qu.length

/-- A well-formed queue/visited entry: within budget, on the 1/10 grid,
and realizable by a walkable path from start of exactly that cost. -/
def ReachEntryOK (m : GameMap) (start : FieldCoords) (maxCost : ℚ)
    (e : FieldCoords × WithTop ℚ) : Prop :=
  e.2 ≤ (maxCost : WithTop ℚ) ∧ (∃ kk : ℕ, e.2 = (((kk : ℚ) / 10 : ℚ) : WithTop ℚ)) ∧
  ∃ p, IsWalkablePath m start e.1 p ∧ pathCost m p = e.2

/-- The edge from v (at cost c) to nc has been relaxed in vis: either the
new cost exceeds the budget, or vis records a cost ≤ c + step. -/
def ReachRelaxedAt (m : GameMap) (maxCost : ℚ) (vis : List (FieldCoords × WithTop ℚ))
    (v : FieldCoords) (c : WithTop ℚ) (nc : FieldCoords) : Prop :=
  ¬(c + getMovementCost m v nc ≤ (maxCost : WithTop ℚ)) ∨
  ∃ c2, alookup vis nc = Option.some c2 ∧ c2 ≤ c + getMovementCost m v nc

/-- Loop invariant of getReachableHexes (established for 0 ≤ maxCost). -/
structure ReachInv (m : GameMap) (start : FieldCoords) (maxCost : ℚ)
    (qu vis : List (FieldCoords × WithTop ℚ)) (reach : List FieldCoords) : Prop where
  qOK : ∀ e ∈ qu, ReachEntryOK m start maxCost e
  qVis : ∀ e ∈ qu, ∃ cv, alookup vis e.1 = Option.some cv ∧ cv ≤ e.2
  vOK : ∀ v c, alookup vis v = Option.some c → ReachEntryOK m start maxCost (v, c)
  vStart : alookup vis start = Option.some 0
  vRelaxed : ∀ v c, alookup vis v = Option.some c →
    (v, c) ∈ qu ∨ ∀ nc, WalkStep m v nc → ReachRelaxedAt m maxCost vis v c nc
  vReach : ∀ v c, alookup vis v = Option.some c → v ∈ reach ∨ ∃ e ∈ qu, e.1 = v
  rOK : ∀ v ∈ reach, ∃ p, IsWalkablePath m start v p ∧ pathCost m p ≤ (maxCost : WithTop ℚ)

/-! ## Specification-side definitions for the A* optimality proof -/

/-- A well-formed A* node: its parent chain reconstructs a walkable path
from start to its coords whose total cost is exactly gCost, hCost is the
heuristic at coords, and fCost = gCost + hCost. -/
def NodeOK (m : GameMap) (start goal : FieldCoords) (n : ANode) : Prop :=
  IsWalkablePath m start n.coords (reconstructPath n) ∧
  pathCost m (reconstructPath n) = n.gCost ∧
  n.hCost = ((hexDistance n.coords goal : ℚ) : WithTop ℚ) ∧
  n.fCost = n.gCost + n.hCost

/-- Point update of the ghost distance map recording a newly closed hex. -/
def updD (D : FieldCoords → WithTop ℚ) (c : FieldCoords) (g : WithTop ℚ) :
    FieldCoords → WithTop ℚ :=
  fun w => if w = c then g else D w

/-- Loop invariant of the A* search.  D is a ghost map assigning every
closed hex an optimal-cost witness; open nodes carry exact realizable
costs, closed hexes are optimal and fully relaxed into the frontier. -/
structure AInv (m : GameMap) (start goal : FieldCoords) (D : FieldCoords → WithTop ℚ)
    (openL : List ANode) (closed : List FieldCoords) : Prop where
  nodesOK : ∀ n ∈ openL, NodeOK m start goal n
  openNodup : (openL.map ANode.coords).Nodup
  openNotClosed : ∀ n ∈ openL, n.coords ∉ closed
  goalOpen : goal ∉ closed
  startCov : start ∈ closed ∨ ∃ n ∈ openL, n.coords = start ∧ n.gCost ≤ 0
  closedOpt : ∀ c ∈ closed, ∀ p, IsWalkablePath m start c p → D c ≤ pathCost m p
  closedRelaxed : ∀ c ∈ closed, ∀ w, WalkStep m c w →
    (w ∈ closed ∧ D w ≤ D c + getMovementCost m c w) ∨
    (∃ n ∈ openL, n.coords = w ∧ n.gCost ≤ D c + getMovementCost m c w)

/-! ## Helper lemmas: integer ranges -/

lemma mem_intRange {lo hi a : ℤ} : a ∈ intRange lo hi ↔ lo ≤ a ∧ a ≤ hi := by
  simp only [intRange, List.mem_map, List.mem_range]
  constructor
  · rintro ⟨i, hi2, rfl⟩
    omega
  · intro h
    exact ⟨(a - lo).toNat, by omega, by omega⟩

lemma nodup_intRange (lo hi : ℤ) : (intRange lo hi).Nodup := by
  refine List.Nodup.map ?_ (List.nodup_range _)
  intro i j h
  simp only [add_right_inj, Nat.cast_inj] at h
  exact h

lemma length_intRange (lo hi : ℤ) : (intRange lo hi).length = (hi + 1 - lo).toNat := by
  simp [intRange]

/-! ## Helper lemmas: hex distance -/

lemma hexDistNum_self (a : FieldCoords) : hexDistNum a a = 0 := by
  simp [hexDistNum]

lemma hexDistNum_eq_zero_iff {a b : FieldCoords} : hexDistNum a b = 0 ↔ a = b := by
  unfold hexDistNum
  constructor
  · intro h
    have hx : a.x = b.x := by omega
    have hy : a.y = b.y := by omega
    cases a; cases b
    simp_all
  · rintro rfl
    simp

lemma hexDistNum_symm (a b : FieldCoords) : hexDistNum a b = hexDistNum b a := by
  unfold hexDistNum
  omega

lemma hexDistNum_triangle (a b c : FieldCoords) :
    hexDistNum a c ≤ hexDistNum a b + hexDistNum b c := by
  unfold hexDistNum
  omega

lemma hexDistance_nonneg (a b : FieldCoords) : 0 ≤ hexDistance a b := by
  unfold hexDistance
  positivity

lemma hexDistance_le_iff {a b : FieldCoords} {n : ℤ} :
    hexDistance a b ≤ (n : ℚ) ↔ (hexDistNum a b : ℤ) ≤ 2 * n := by
  unfold hexDistance
  rw [div_le_iff₀ (by norm_num : (0:ℚ) < 2)]
  constructor
  · intro h
    have h2 : ((hexDistNum a b : ℤ) : ℚ) ≤ ((2 * n : ℤ) : ℚ) := by
      push_cast
      push_cast at h
      linarith
    exact_mod_cast h2
  · intro h
    have h2 : ((hexDistNum a b : ℤ) : ℚ) ≤ ((2 * n : ℤ) : ℚ) := by exact_mod_cast h
    push_cast at h2
    linarith

lemma hexDistance_eq_one_iff {a b : FieldCoords} : hexDistance a b = 1 ↔ hexDistNum a b = 2 := by
  unfold hexDistance
  rw [div_eq_iff (by norm_num : (2:ℚ) ≠ 0), one_mul]
  constructor
  · intro h
    exact_mod_cast h
  · intro h
    exact_mod_cast h

lemma mem_getNeighbors_iff {a b : FieldCoords} : b ∈ getNeighbors a ↔ hexDistNum a b = 2 := by
  simp only [getNeighbors, List.mem_cons, List.mem_singleton, List.not_mem_nil, or_false]
  unfold hexDistNum
  constructor
  · rintro (rfl | rfl | rfl | rfl | rfl | rfl) <;> simp
  · intro h
    have hcases : (b.x = a.x + 1 ∧ b.y = a.y) ∨ (b.x = a.x + 1 ∧ b.y = a.y - 1) ∨
        (b.x = a.x ∧ b.y = a.y - 1) ∨ (b.x = a.x - 1 ∧ b.y = a.y) ∨
        (b.x = a.x - 1 ∧ b.y = a.y + 1) ∨ (b.x = a.x ∧ b.y = a.y + 1) := by
      omega
    cases b
    rcases hcases with ⟨h1, h2⟩ | ⟨h1, h2⟩ | ⟨h1, h2⟩ | ⟨h1, h2⟩ | ⟨h1, h2⟩ | ⟨h1, h2⟩ <;>
      simp_all

lemma getNeighbors_dist_one {a b : FieldCoords} (h : b ∈ getNeighbors a) :
    hexDistance a b = 1 :=
  hexDistance_eq_one_iff.mpr (mem_getNeighbors_iff.mp h)

lemma hexDistance_symm (a b : FieldCoords) : hexDistance a b = hexDistance b a := by
  unfold hexDistance
  rw [hexDistNum_symm]

lemma hexDistance_triangle (a b c : FieldCoords) :
    hexDistance a c ≤ hexDistance a b + hexDistance b c := by
  unfold hexDistance
  rw [div_add_div_same, div_le_div_iff_of_pos_right (by norm_num : (0:ℚ) < 2)]
  exact_mod_cast hexDistNum_triangle a b c

/-- C7: hexDistance is a metric on axial coordinates: it vanishes exactly
on equal coordinates, is symmetric, and satisfies the triangle
inequality. -/
theorem claim_C7_hexDistance_metric :
    (∀ a b : FieldCoords, hexDistance a b = 0 ↔ a = b) ∧
    (∀ a b : FieldCoords, hexDistance a b = hexDistance b a) ∧
    (∀ a b c : FieldCoords, hexDistance a c ≤ hexDistance a b + hexDistance b c) := by
  refine ⟨fun a b => ?_, hexDistance_symm, hexDistance_triangle⟩
  unfold hexDistance
  rw [div_eq_iff (by norm_num : (2:ℚ) ≠ 0), zero_mul]
  constructor
  · intro h
    exact hexDistNum_eq_zero_iff.mp (by exact_mod_cast h)
  · intro h
    have h2 : hexDistNum a b = 0 := hexDistNum_eq_zero_iff.mpr h
    rw [h2]
    norm_num

/-- C6: offset→axial→offset and axial→offset→axial are both the identity
on every in-bounds coordinate (in fact on all coordinates). -/
theorem claim_C6_offset_axial_bijection :
    (∀ w h col row : ℤ, 0 ≤ col → col < w → 0 ≤ row → row < h →
      axialToOffset (offsetToAxial col row) = ⟨col, row⟩) ∧
    (∀ (m : GameMap) (c : FieldCoords), isValidCoord m c = true →
      offsetToAxial (axialToOffset c).col (axialToOffset c).row = c) := by
  constructor
  · intro w h col row _ _ _ _
    simp [offsetToAxial, axialToOffset, OffsetCoords.mk.injEq]
  · intro m c _
    cases c
    simp [offsetToAxial, axialToOffset, FieldCoords.mk.injEq]

/-- Witness for C6 at the concrete in-bounds pair (1,2) and axial (1,1)
on the 3×3 map. -/
theorem claim_C6_witness :
    ((0:ℤ) ≤ 1 ∧ (1:ℤ) < 3 ∧ (0:ℤ) ≤ 2 ∧ (2:ℤ) < 3 ∧
      axialToOffset (offsetToAxial 1 2) = ⟨1, 2⟩) ∧
    (isValidCoord map3 ⟨1, 1⟩ = true ∧
      offsetToAxial (axialToOffset ⟨1, 1⟩).col (axialToOffset ⟨1, 1⟩).row = ⟨1, 1⟩) :=
  ⟨⟨by norm_num, by norm_num, by norm_num, by norm_num,
      claim_C6_offset_axial_bijection.1 3 3 1 2 (by norm_num) (by norm_num) (by norm_num)
        (by norm_num)⟩,
   ⟨by decide, claim_C6_offset_axial_bijection.2 map3 ⟨1, 1⟩ (by decide)⟩⟩

/-! ## Helper lemmas: hexesInRange -/

lemma mem_hexesInRange_iff {c h : FieldCoords} {R : ℤ} :
    h ∈ hexesInRange c R ↔ hexDistance c h ≤ (R : ℚ) := by
  rw [hexDistance_le_iff]
  simp only [hexesInRange, List.mem_flatMap, List.mem_map, mem_intRange]
  constructor
  · rintro ⟨q, hq, r, hr, rfl⟩
    simp only [hexDistNum]
    omega
  · intro hle
    refine ⟨h.x - c.x, by simp only [hexDistNum] at hle; omega,
      ⟨h.y - c.y, by simp only [hexDistNum] at hle; omega, ?_⟩⟩
    cases h
    simp

lemma nodup_hexesInRange (c : FieldCoords) (R : ℤ) : (hexesInRange c R).Nodup := by
  rw [hexesInRange, List.nodup_flatMap]
  constructor
  · intro q _
    refine List.Nodup.map ?_ (nodup_intRange _ _)
    intro r1 r2 hr
    simpa using hr
  · refine List.Pairwise.imp ?_ (nodup_intRange _ _)
    intro q1 q2 hne z hz1 hz2
    simp only [List.mem_map] at hz1 hz2
    obtain ⟨r1, _, rfl⟩ := hz1
    obtain ⟨r2, _, h2⟩ := hz2
    exact hne (by simpa using congrArg FieldCoords.x h2.symm)

lemma list_sum_map_natCast (l : List ℤ) (f : ℤ → ℕ) :
    (((l.map f).sum : ℕ) : ℤ) = (l.map (fun a => ((f a : ℤ)))).sum := by
  induction l with
  | nil => simp
  | cons a l ih => simp [ih]

lemma intRange_snoc {lo hi : ℤ} (h : lo ≤ hi) :
    intRange lo hi = intRange lo (hi - 1) ++ [hi] := by
  have hn : (hi + 1 - lo).toNat = (hi - 1 + 1 - lo).toNat + 1 := by omega
  simp only [intRange, hn, List.range_succ, List.map_append, List.map_cons, List.map_nil]
  congr 2
  omega

lemma list_sum_intRange_eq_finset (g : ℤ → ℤ) (lo hi : ℤ) :
    ((intRange lo hi).map g).sum = ∑ q ∈ Finset.Icc lo hi, g q := by
  by_cases hle : lo ≤ hi
  · obtain ⟨n, hn⟩ : ∃ n : ℕ, hi = lo + n := ⟨(hi - lo).toNat, by omega⟩
    subst hn
    induction n with
    | zero =>
      have : intRange lo lo = [lo] := by
        simp [intRange, show (lo + 1 - lo).toNat = 1 by omega, List.range_succ]
      simp [this]
    | succ k ih =>
      have hstep : intRange lo (lo + (k + 1 : ℕ)) = intRange lo (lo + k) ++ [lo + (k + 1 : ℕ)] := by
        rw [intRange_snoc (by push_cast; omega)]
        congr 1
        push_cast
        ring_nf
      have hicc : Finset.Icc lo (lo + ((k + 1 : ℕ) : ℤ)) =
          insert (lo + ((k + 1 : ℕ) : ℤ)) (Finset.Icc lo (lo + (k : ℕ))) := by
        ext z
        simp only [Finset.mem_Icc, Finset.mem_insert]
        push_cast
        omega
      rw [hstep, List.map_append, List.sum_append, hicc,
        Finset.sum_insert (by simp only [Finset.mem_Icc]; omega),
        ih (by omega)]
      simp [add_comm]
  · have h1 : intRange lo hi = [] := by
      simp only [intRange, List.map_eq_nil_iff, List.range_eq_nil]
      omega
    have h2 : Finset.Icc lo hi = ∅ := Finset.Icc_eq_empty (by omega)
    simp [h1, h2]

lemma sum_abs_Icc (n : ℕ) : (∑ q ∈ Finset.Icc (-(n : ℤ)) (n : ℤ), |q|) = n * (n + 1) := by
  induction n with
  | zero => simp
  | succ k ih =>
    have hicc : Finset.Icc (-((k + 1 : ℕ) : ℤ)) ((k + 1 : ℕ) : ℤ) =
        insert (-((k + 1 : ℕ) : ℤ))
          (insert ((k + 1 : ℕ) : ℤ) (Finset.Icc (-(k : ℕ) : ℤ) (k : ℕ))) := by
      ext z
      simp only [Finset.mem_Icc, Finset.mem_insert]
      push_cast
      omega
    rw [hicc, Finset.sum_insert (by simp only [Finset.mem_insert, Finset.mem_Icc]; push_cast; omega),
      Finset.sum_insert (by simp only [Finset.mem_Icc]; push_cast; omega), ih]
    have h1 : |(-((k + 1 : ℕ) : ℤ))| = (k + 1 : ℕ) := by
      push_cast
      rw [abs_neg, abs_of_nonneg (by positivity)]
    have h2 : |((k + 1 : ℕ) : ℤ)| = (k + 1 : ℕ) := abs_of_nonneg (by positivity)
    rw [h1, h2]
    push_cast
    ring

lemma length_hexesInRange (c : FieldCoords) (R : ℤ) (hR : 0 ≤ R) :
    ((hexesInRange c R).length : ℤ) = 3 * R ^ 2 + 3 * R + 1 := by
  have hlen : (hexesInRange c R).length =
      ((intRange (-R) R).map
        (fun q => (intRange (max (-R) (-q - R)) (min R (-q + R))).length)).sum := by
    rw [hexesInRange, List.length_flatMap]
    refine congrArg List.sum (List.map_congr_left ?_)
    intro a _
    simp
  rw [hlen, list_sum_map_natCast,
    show (fun a => (((intRange (max (-R) (-a - R)) (min R (-a + R))).length : ℤ))) =
      (fun a => ((min R (-a + R) + 1 - max (-R) (-a - R)).toNat : ℤ)) from
      funext (fun a => by rw [length_intRange]),
    list_sum_intRange_eq_finset]
  have hcongr : ∀ q ∈ Finset.Icc (-R) R,
      (((min R (-q + R) + 1 - max (-R) (-q - R)).toNat : ℤ)) = 2 * R + 1 - |q| := by
    intro q hq
    simp only [Finset.mem_Icc] at hq
    rw [Int.toNat_of_nonneg (by omega)]
    rcases le_total q 0 with hq0 | hq0
    · rw [abs_of_nonpos hq0]
      omega
    · rw [abs_of_nonneg hq0]
      omega
  rw [Finset.sum_congr rfl hcongr, Finset.sum_sub_distrib, Finset.sum_const, Int.card_Icc]
  have hR2 : R = ((R.toNat : ℕ) : ℤ) := by omega
  rw [hR2, sum_abs_Icc]
  have : ((R.toNat : ℤ) + 1 - -(R.toNat : ℤ)).toNat = 2 * R.toNat + 1 := by omega
  rw [this]
  ring

/-- C8: hexesInRange c R returns exactly the hexes at hexDistance ≤ R from
c, pairwise distinct, and there are exactly 3R²+3R+1 of them. -/
theorem claim_C8_hexesInRange (c : FieldCoords) (R : ℤ) (hR : 0 ≤ R) :
    (∀ h : FieldCoords, h ∈ hexesInRange c R ↔ hexDistance c h ≤ (R : ℚ)) ∧
    (hexesInRange c R).Nodup ∧
    ((hexesInRange c R).length : ℤ) = 3 * R ^ 2 + 3 * R + 1 :=
  ⟨fun _ => mem_hexesInRange_iff, nodup_hexesInRange c R, length_hexesInRange c R hR⟩

/-- Witness for C8 at center (0,0) and R = 2: 19 hexes. -/
theorem claim_C8_witness :
    (0 : ℤ) ≤ 2 ∧ ((hexesInRange ⟨0, 0⟩ 2).length : ℤ) = 3 * 2 ^ 2 + 3 * 2 + 1 :=
  ⟨by norm_num, (claim_C8_hexesInRange ⟨0, 0⟩ 2 (by norm_num)).2.2⟩

/-! ## Helper lemmas: pixel conversion -/

lemma pixelToHex_eq (p : Point) (size : ℝ) :
    pixelToHex p size =
      hexRound (FLAT_ORIENTATION.b0 * (p.x / size) + FLAT_ORIENTATION.b1 * (p.y / size))
        (FLAT_ORIENTATION.b2 * (p.x / size) + FLAT_ORIENTATION.b3 * (p.y / size)) := rfl

lemma hexToPixel_x (c : FieldCoords) (size : ℝ) :
    (hexToPixel c size).x =
      (FLAT_ORIENTATION.f0 * (c.x : ℝ) + FLAT_ORIENTATION.f1 * (c.y : ℝ)) * size := rfl

lemma hexToPixel_y (c : FieldCoords) (size : ℝ) :
    (hexToPixel c size).y =
      (FLAT_ORIENTATION.f2 * (c.x : ℝ) + FLAT_ORIENTATION.f3 * (c.y : ℝ)) * size := rfl

/-- Rounding the exact image of an integer hex returns that hex: all three
rounding errors are zero, so neither correction branch fires. -/
lemma hexRound_int (mx my : ℤ) : hexRound ((mx : ℝ)) ((my : ℝ)) = ⟨mx, my⟩ := by
  have h1 : round ((mx : ℝ)) = mx := round_intCast mx
  have h2 : round ((my : ℝ)) = my := round_intCast my
  have h3 : round (-(mx : ℝ) - (my : ℝ)) = -mx - my := by
    rw [show -(mx : ℝ) - (my : ℝ) = ((-mx - my : ℤ) : ℝ) by push_cast; ring]
    exact round_intCast _
  simp only [hexRound, h1, h2, h3]
  push_cast
  simp

/-- C5: pixelToHex inverts hexToPixel on every integer hex coordinate and
positive size: the rounding step maps the exact pixel image back to the
hex. -/
theorem claim_C5_pixel_roundtrip (c : FieldCoords) (size : ℝ) (hs : 0 < size) :
    pixelToHex (hexToPixel c size) size = c := by
  have hne : size ≠ 0 := ne_of_gt hs
  have hsq : Real.sqrt 3 * Real.sqrt 3 = 3 := Real.mul_self_sqrt (by norm_num)
  have hx : (hexToPixel c size).x / size =
      FLAT_ORIENTATION.f0 * (c.x : ℝ) + FLAT_ORIENTATION.f1 * (c.y : ℝ) := by
    rw [hexToPixel_x, mul_div_assoc, div_self hne, mul_one]
  have hy : (hexToPixel c size).y / size =
      FLAT_ORIENTATION.f2 * (c.x : ℝ) + FLAT_ORIENTATION.f3 * (c.y : ℝ) := by
    rw [hexToPixel_y, mul_div_assoc, div_self hne, mul_one]
  rw [pixelToHex_eq, hx, hy]
  have e1 : FLAT_ORIENTATION.b0 *
        (FLAT_ORIENTATION.f0 * (c.x : ℝ) + FLAT_ORIENTATION.f1 * (c.y : ℝ)) +
      FLAT_ORIENTATION.b1 *
        (FLAT_ORIENTATION.f2 * (c.x : ℝ) + FLAT_ORIENTATION.f3 * (c.y : ℝ)) = ((c.x : ℤ) : ℝ) := by
    show (2 / 3 : ℝ) * (3 / 2 * (c.x : ℝ) + 0 * (c.y : ℝ)) +
      0 * (Real.sqrt 3 / 2 * (c.x : ℝ) + Real.sqrt 3 * (c.y : ℝ)) = ((c.x : ℤ) : ℝ)
    ring
  have e2 : FLAT_ORIENTATION.b2 *
        (FLAT_ORIENTATION.f0 * (c.x : ℝ) + FLAT_ORIENTATION.f1 * (c.y : ℝ)) +
      FLAT_ORIENTATION.b3 *
        (FLAT_ORIENTATION.f2 * (c.x : ℝ) + FLAT_ORIENTATION.f3 * (c.y : ℝ)) = ((c.y : ℤ) : ℝ) := by
    show (-(1 / 3) : ℝ) * (3 / 2 * (c.x : ℝ) + 0 * (c.y : ℝ)) +
      Real.sqrt 3 / 3 * (Real.sqrt 3 / 2 * (c.x : ℝ) + Real.sqrt 3 * (c.y : ℝ)) = ((c.y : ℤ) : ℝ)
    linear_combination ((c.x : ℝ) / 6 + (c.y : ℝ) / 3) * hsq
  rw [e1, e2, hexRound_int]

/-- Witness for C5 at hex (2,3) and size 1. -/
theorem claim_C5_witness :
    (0 : ℝ) < 1 ∧ pixelToHex (hexToPixel ⟨2, 3⟩ 1) 1 = ⟨2, 3⟩ :=
  ⟨by norm_num, claim_C5_pixel_roundtrip ⟨2, 3⟩ 1 (by norm_num)⟩

/-! ## Helper lemmas: association lists -/

lemma list_find?_congr {α : Type} (p q : α → Bool) (l : List α) (h : ∀ x, p x = q x) :
    l.find? p = l.find? q := by
  have : p = q := funext h
  rw [this]

lemma alookup_mapSet {κ α : Type} [DecidableEq κ] (l : List (κ × α)) (k k2 : κ) (v : α) :
    alookup (mapSet l k v) k2 = if k2 = k then Option.some v else alookup l k2 := by
  unfold mapSet alookup
  by_cases hany : l.any (fun kv => decide (kv.1 = k)) = true
  · rw [if_pos hany, List.find?_map]
    by_cases hk : k2 = k
    · subst hk
      rw [if_pos rfl]
      have hpred : ∀ kv : κ × α,
          ((fun kv : κ × α => decide (kv.1 = k2)) ∘ fun kv : κ × α =>
            if kv.1 = k2 then (k2, v) else kv) kv = (fun kv : κ × α => decide (kv.1 = k2)) kv := by
        intro kv
        by_cases h1 : kv.1 = k2 <;> simp [h1]
      rw [list_find?_congr _ _ _ hpred]
      rw [List.any_eq_true] at hany
      obtain ⟨kv, hmem, hkv⟩ := hany
      have hsome : (l.find? (fun kv => decide (kv.1 = k2))).isSome :=
        List.find?_isSome.mpr ⟨kv, hmem, hkv⟩
      obtain ⟨kv2, hfind⟩ := Option.isSome_iff_exists.mp hsome
      have hkv2 : kv2.1 = k2 := by simpa using List.find?_some hfind
      rw [hfind]
      simp [hkv2]
    · rw [if_neg hk]
      have hpred : ∀ kv : κ × α,
          ((fun kv : κ × α => decide (kv.1 = k2)) ∘ fun kv : κ × α =>
            if kv.1 = k then (k, v) else kv) kv = (fun kv : κ × α => decide (kv.1 = k2)) kv := by
        intro kv
        by_cases h1 : kv.1 = k
        · simp [h1, Ne.symm hk]
        · simp [h1]
      rw [list_find?_congr _ _ _ hpred]
      cases hfind : l.find? (fun kv => decide (kv.1 = k2)) with
      | none => simp
      | some kv =>
        have hkv : kv.1 = k2 := by simpa using List.find?_some hfind
        have hne : ¬(kv.1 = k) := by
          rw [hkv]
          exact hk
        simp [hne]
  · rw [if_neg hany, List.find?_append]
    have hnone : l.find? (fun kv => decide (kv.1 = k)) = Option.none := by
      rw [List.find?_eq_none]
      simp only [List.any_eq_true] at hany
      push_neg at hany
      intro x hx
      simpa using hany x hx
    by_cases hk : k2 = k
    · subst hk
      rw [hnone]
      simp
    · rw [if_neg hk]
      cases hfind : l.find? (fun kv => decide (kv.1 = k2)) with
      | none =>
        simp only [hfind, Option.none_or]
        have hne : ¬(k = k2) := fun hh => hk hh.symm
        rw [List.find?_eq_none.mpr (by
          intro x hx
          simp only [List.mem_singleton] at hx
          subst hx
          simpa using hne)]
      | some kv => simp [hfind, Option.or_some]

lemma getComponent_addComponent (e : Entity) (c : Component) (t : String) :
    (e.addComponent c).getComponent t = if t = c.ctag then Option.some c else e.getComponent t :=
  alookup_mapSet e.components c.ctag t c

/-! ## Helper lemmas: the Movement system -/

/-- One Movement tick from a state where the entity sits on the current
waypoint: the path index advances (path not yet exhausted). -/
lemma movement_step_advance (e : Entity) (sp : ℚ) (ps : List FieldCoords) (idx : ℕ)
    (pos : FieldCoords)
    (hm : e.getComponent ("movement") =
      Option.some (Component.movement sp (Option.some ps) idx true))
    (hp : e.getComponent ("position") = Option.some (Component.position pos))
    (htarget : ps.get? idx = Option.some pos) (hlen : ¬(ps.length ≤ idx + 1)) :
    movementUpdateEntity e =
      e.addComponent (Component.movement sp (Option.some ps) (idx + 1) true) := by
  unfold movementUpdateEntity
  rw [hm, hp]
  have ht2 : ps[idx]? = Option.some pos := by
    rw [← List.get?_eq_getElem?]
    exact htarget
  simp [ht2, hlen]

/-- One Movement tick from a state where the entity sits on the last
waypoint: movement is cleared. -/
lemma movement_step_finish (e : Entity) (sp : ℚ) (ps : List FieldCoords) (idx : ℕ)
    (pos : FieldCoords)
    (hm : e.getComponent ("movement") =
      Option.some (Component.movement sp (Option.some ps) idx true))
    (hp : e.getComponent ("position") = Option.some (Component.position pos))
    (htarget : ps.get? idx = Option.some pos) (hlen : ps.length ≤ idx + 1) :
    movementUpdateEntity e =
      e.addComponent (Component.movement sp Option.none 0 false) := by
  unfold movementUpdateEntity
  rw [hm, hp]
  have ht2 : ps[idx]? = Option.some pos := by
    rw [← List.get?_eq_getElem?]
    exact htarget
  simp [ht2, hlen]

/-- One Movement tick from a state where the entity is not yet on the
current waypoint: the position snaps to the waypoint. -/
lemma movement_step_snap (e : Entity) (sp : ℚ) (ps : List FieldCoords) (idx : ℕ)
    (pos target : FieldCoords)
    (hm : e.getComponent ("movement") =
      Option.some (Component.movement sp (Option.some ps) idx true))
    (hp : e.getComponent ("position") = Option.some (Component.position pos))
    (htarget : ps.get? idx = Option.some target) (hne : pos ≠ target) :
    movementUpdateEntity e = e.addComponent (Component.position target) := by
  unfold movementUpdateEntity
  rw [hm, hp]
  have ht2 : ps[idx]? = Option.some target := by
    rw [← List.get?_eq_getElem?]
    exact htarget
  simp [ht2, hne]

/-- C3 counterexample: the entity entC3 (3-waypoint path starting at its
own position, currentPathIndex 0, isMoving true): after exactly 3 Movement
ticks its movement component still has isMoving = true and a non-null
path (index 2), refuting "after 3 ticks isMoving = false and path = null". -/
theorem claim_C3_counterexample :
    ((movementUpdateEntity)^[3] entC3).getComponent ("movement") =
      Option.some
        (Component.movement 2 (Option.some [⟨0, 0⟩, ⟨1, 0⟩, ⟨2, 0⟩]) 2 true) := by
  decide

/-- C3 (amended): one Movement tick performs a single action (advance the
index or snap the position), so a 3-waypoint path whose first waypoint is
the entity's position and whose consecutive waypoints are distinct needs
5 ticks; after 5 ticks isMoving = false and path = null. -/
theorem claim_C3_amended (e : Entity) (sp : ℚ) (w0 w1 w2 : FieldCoords)
    (hm : e.getComponent ("movement") =
      Option.some (Component.movement sp (Option.some [w0, w1, w2]) 0 true))
    (hp : e.getComponent ("position") = Option.some (Component.position w0))
    (h1 : w1 ≠ w0) (h2 : w2 ≠ w1) :
    ((movementUpdateEntity)^[5] e).getComponent ("movement") =
      Option.some (Component.movement sp Option.none 0 false) := by
  have hadd := getComponent_addComponent
  set ps : List FieldCoords := [w0, w1, w2] with hps
  have s1 : movementUpdateEntity e =
      e.addComponent (Component.movement sp (Option.some ps) 1 true) :=
    movement_step_advance e sp ps 0 w0 hm hp (by rw [hps]; rfl) (by rw [hps]; norm_num)
  set e1 := e.addComponent (Component.movement sp (Option.some ps) 1 true) with he1
  have e1m : e1.getComponent ("movement") =
      Option.some (Component.movement sp (Option.some ps) 1 true) := by
    rw [he1, hadd]
    rfl
  have e1p : e1.getComponent ("position") = Option.some (Component.position w0) := by
    rw [he1, hadd, if_neg (by simp [Component.ctag])]
    exact hp
  have s2 : movementUpdateEntity e1 = e1.addComponent (Component.position w1) :=
    movement_step_snap e1 sp ps 1 w0 w1 e1m e1p (by rw [hps]; rfl) (fun hh => h1 hh.symm)
  set e2 := e1.addComponent (Component.position w1) with he2
  have e2m : e2.getComponent ("movement") =
      Option.some (Component.movement sp (Option.some ps) 1 true) := by
    rw [he2, hadd, if_neg (by simp [Component.ctag])]
    exact e1m
  have e2p : e2.getComponent ("position") = Option.some (Component.position w1) := by
    rw [he2, hadd]
    rfl
  have s3 : movementUpdateEntity e2 =
      e2.addComponent (Component.movement sp (Option.some ps) 2 true) :=
    movement_step_advance e2 sp ps 1 w1 e2m e2p (by rw [hps]; rfl) (by rw [hps]; norm_num)
  set e3 := e2.addComponent (Component.movement sp (Option.some ps) 2 true) with he3
  have e3m : e3.getComponent ("movement") =
      Option.some (Component.movement sp (Option.some ps) 2 true) := by
    rw [he3, hadd]
    rfl
  have e3p : e3.getComponent ("position") = Option.some (Component.position w1) := by
    rw [he3, hadd, if_neg (by simp [Component.ctag])]
    exact e2p
  have s4 : movementUpdateEntity e3 = e3.addComponent (Component.position w2) :=
    movement_step_snap e3 sp ps 2 w1 w2 e3m e3p (by rw [hps]; rfl) (fun hh => h2 hh.symm)
  set e4 := e3.addComponent (Component.position w2) with he4
  have e4m : e4.getComponent ("movement") =
      Option.some (Component.movement sp (Option.some ps) 2 true) := by
    rw [he4, hadd, if_neg (by simp [Component.ctag])]
    exact e3m
  have e4p : e4.getComponent ("position") = Option.some (Component.position w2) := by
    rw [he4, hadd]
    rfl
  have s5 : movementUpdateEntity e4 =
      e4.addComponent (Component.movement sp Option.none 0 false) :=
    movement_step_finish e4 sp ps 2 w2 e4m e4p (by rw [hps]; rfl) (by rw [hps]; norm_num)
  have hiter : (movementUpdateEntity)^[5] e =
      e4.addComponent (Component.movement sp Option.none 0 false) := by
    rw [show (5 : ℕ) = 1 + 1 + 1 + 1 + 1 from rfl]
    rw [Function.iterate_add_apply, Function.iterate_add_apply, Function.iterate_add_apply,
      Function.iterate_add_apply]
    simp only [Function.iterate_one]
    rw [s1, s2, s3, s4, s5]
  rw [hiter, hadd]
  rfl

/-- Witness for C3's amended statement at a concrete entity. -/
theorem claim_C3_witness :
    entC3.getComponent ("movement") =
      Option.some (Component.movement 2 (Option.some [⟨0, 0⟩, ⟨1, 0⟩, ⟨2, 0⟩]) 0 true) ∧
    entC3.getComponent ("position") = Option.some (Component.position ⟨0, 0⟩) ∧
    (⟨1, 0⟩ : FieldCoords) ≠ ⟨0, 0⟩ ∧ (⟨2, 0⟩ : FieldCoords) ≠ ⟨1, 0⟩ ∧
    ((movementUpdateEntity)^[5] entC3).getComponent ("movement") =
      Option.some (Component.movement 2 Option.none 0 false) :=
  ⟨by decide, by decide, by decide, by decide,
    claim_C3_amended entC3 2 ⟨0, 0⟩ ⟨1, 0⟩ ⟨2, 0⟩ (by decide) (by decide) (by decide) (by decide)⟩

/-! ## Helper lemmas: decimal ids are injective -/

lemma digitVal_digitChar (k : ℕ) (hk : k < 10) : digitVal (Nat.digitChar k) = k := by
  interval_cases k <;> rfl

lemma parseDigits_toDigitsCore (fuel : ℕ) :
    ∀ n ds, n < fuel →
      (Nat.toDigitsCore 10 fuel n ds).foldl (fun a c => 10 * a + digitVal c) 0 =
        ds.foldl (fun a c => 10 * a + digitVal c) n := by
  induction fuel with
  | zero =>
    intro n ds h
    omega
  | succ f ih =>
    intro n ds h
    rw [Nat.toDigitsCore]
    by_cases hdiv : n / 10 = 0
    · rw [if_pos hdiv]
      have hlt : n % 10 < 10 := Nat.mod_lt n (by norm_num)
      have hn : n % 10 = n := by omega
      simp only [List.foldl_cons, digitVal_digitChar (n % 10) hlt]
      rw [hn]
      norm_num
    · rw [if_neg hdiv]
      have hlt2 : n / 10 < f := by
        have h1 : n / 10 < n := Nat.div_lt_self (by omega) (by norm_num)
        omega
      rw [ih (n / 10) (Nat.digitChar (n % 10) :: ds) hlt2]
      have hlt : n % 10 < 10 := Nat.mod_lt n (by omega)
      simp only [List.foldl_cons, digitVal_digitChar (n % 10) hlt]
      congr 1
      omega

lemma parseDigits_toDigits (n : ℕ) : parseDigits (Nat.toDigits 10 n) = n := by
  unfold parseDigits Nat.toDigits
  rw [parseDigits_toDigitsCore (n + 1) n [] (by omega)]
  rfl

lemma toString_nat_injective : Function.Injective (fun n : ℕ => toString n) := by
  intro a b h
  have h2 : Nat.repr a = Nat.repr b := h
  unfold Nat.repr at h2
  have hdata : Nat.toDigits 10 a = Nat.toDigits 10 b := by
    have := congrArg String.data h2
    simpa [List.asString] using this
  have := congrArg parseDigits hdata
  rwa [parseDigits_toDigits, parseDigits_toDigits] at this

lemma mkEntityId_injective : Function.Injective mkEntityId := by
  intro a b h
  unfold mkEntityId at h
  have hdata := congrArg String.data h
  simp only [String.data_append] at hdata
  have h2 : (toString a).data = (toString b).data := by
    exact List.append_cancel_left hdata
  have h3 : toString a = toString b := by
    cases hta : toString a
    cases htb : toString b
    rw [hta, htb] at h2
    simp only at h2
    rw [h2]
  exact toString_nat_injective h3

/-! ## Helper lemmas: entity id traces -/

lemma runOps_no_clear (ops : List WorldOp) (h : WorldOp.clearAll ∉ ops) :
    ∀ w : World, ∃ k : ℕ,
      (runOps w ops).1.nextEntityId = w.nextEntityId + k ∧
      (runOps w ops).2 = (List.range' w.nextEntityId k).map mkEntityId := by
  induction ops with
  | nil =>
    intro w
    exact ⟨0, by simp [runOps], by simp [runOps]⟩
  | cons op ops ih =>
    intro w
    have hop : op ≠ WorldOp.clearAll := fun hh => h (by rw [hh]; exact List.mem_cons_self _ _)
    have hops : WorldOp.clearAll ∉ ops := fun hh => h (List.mem_cons_of_mem _ hh)
    cases op with
    | create =>
      obtain ⟨k, hk1, hk2⟩ := ih hops ⟨mapSet w.entities (mkEntityId w.nextEntityId)
        ⟨mkEntityId w.nextEntityId, []⟩, w.nextEntityId + 1⟩
      refine ⟨k + 1, ?_, ?_⟩
      · simp only [runOps, applyOp, World.createEntity]
        dsimp only at hk1
        rw [hk1]
        omega
      · simp only [runOps, applyOp, World.createEntity]
        rw [hk2]
        rw [List.range'_succ]
        simp
    | remove i =>
      obtain ⟨k, hk1, hk2⟩ := ih hops (w.removeEntity i)
      refine ⟨k, ?_, ?_⟩
      · simp only [runOps, applyOp]
        rw [hk1]
        rfl
      · simp only [runOps, applyOp]
        rw [hk2]
        rfl
    | clearAll => exact absurd rfl hop

/-- C9 counterexample: in the session trace create; clear; create, the two
createEntity calls return the same id "entity_0", because clear() resets
nextEntityId to 0 — so ids are not unique across an intervening clear. -/
theorem claim_C9_counterexample :
    (runOps initialWorld [WorldOp.create, WorldOp.clearAll, WorldOp.create]).2 =
      [mkEntityId 0, mkEntityId 0] ∧
    ¬(runOps initialWorld [WorldOp.create, WorldOp.clearAll, WorldOp.create]).2.Nodup := by
  constructor
  · decide
  · decide

/-- C9 (amended): within one session, createEntity returns fresh, pairwise
distinct ids corresponding to consecutive counter values, as long as no
clear() intervenes; removeEntity never affects freshness.  (clear() resets
the counter, so ids can repeat after a clear.) -/
theorem claim_C9_amended (ops : List WorldOp) (hnc : WorldOp.clearAll ∉ ops) (w : World) :
    ∃ k : ℕ,
      (runOps w ops).2 = (List.range' w.nextEntityId k).map mkEntityId ∧
      (runOps w ops).2.Nodup := by
  obtain ⟨k, _, h2⟩ := runOps_no_clear ops hnc w
  refine ⟨k, h2, h2 ▸ List.Nodup.map mkEntityId_injective ?_⟩
  apply List.nodup_range'
  norm_num

/-- Witness for C9's amended statement on a concrete clear-free trace. -/
theorem claim_C9_witness :
    WorldOp.clearAll ∉ [WorldOp.create, WorldOp.remove (mkEntityId 0), WorldOp.create] ∧
    (runOps initialWorld
      [WorldOp.create, WorldOp.remove (mkEntityId 0), WorldOp.create]).2.Nodup :=
  ⟨by decide,
   (claim_C9_amended [WorldOp.create, WorldOp.remove (mkEntityId 0), WorldOp.create]
      (by decide) initialWorld).choose_spec.2⟩

/-! ## Claims C4 and C10: findPath contract -/

/-- C4: findPath returns the explicit no-path value none for out-of-bounds
endpoints, the single-element path [start] for start = goal in bounds, and
none (never an exception — the function is total into Option) both when
the open set is empty and when the iteration budget is exhausted. -/
theorem claim_C4_findPath_contract :
    (∀ (m : GameMap) (s g : FieldCoords),
      isValidCoord m s = false ∨ isValidCoord m g = false → findPath m s g = Option.none) ∧
    (∀ (m : GameMap) (s g : FieldCoords),
      isValidCoord m s = true → isValidCoord m g = true → s = g →
        findPath m s g = Option.some [s]) ∧
    (∀ (m : GameMap) (goal : FieldCoords) (fuel : ℕ) (closed : List FieldCoords),
      aStarLoop m goal fuel [] closed = Option.none) ∧
    (∀ (m : GameMap) (goal : FieldCoords) (openL : List ANode) (closed : List FieldCoords),
      aStarLoop m goal 0 openL closed = Option.none) := by
  refine ⟨?_, ?_, ?_, ?_⟩
  · intro m s g h
    unfold findPath
    rw [if_pos]
    rcases h with h | h <;> simp [h]
  · intro m s g hs hg hsg
    unfold findPath
    rw [if_neg (by simp [hs, hg]), if_pos hsg, hsg]
  · intro m goal fuel closed
    cases fuel <;> rfl
  · intro m goal openL closed
    rfl

/-- Witness for C4 on concrete inputs: an out-of-bounds endpoint, a
start = goal query, an empty open set, and an exhausted budget. -/
theorem claim_C4_witness :
    (isValidCoord map3 ⟨-1, 0⟩ = false ∧ findPath map3 ⟨-1, 0⟩ ⟨0, 0⟩ = Option.none) ∧
    (isValidCoord map3 ⟨1, 1⟩ = true ∧ findPath map3 ⟨1, 1⟩ ⟨1, 1⟩ = Option.some [⟨1, 1⟩]) ∧
    aStarLoop map3 ⟨0, 0⟩ 5 [] [] = Option.none ∧
    aStarLoop map3 ⟨0, 0⟩ 0 [ANode.mk ⟨0, 0⟩ 0 0 0 Option.none] [] = Option.none :=
  ⟨⟨by decide, claim_C4_findPath_contract.1 map3 ⟨-1, 0⟩ ⟨0, 0⟩ (Or.inl (by decide))⟩,
   ⟨by decide, claim_C4_findPath_contract.2.1 map3 ⟨1, 1⟩ ⟨1, 1⟩ (by decide) (by decide) rfl⟩,
   claim_C4_findPath_contract.2.2.1 map3 ⟨0, 0⟩ 5 [],
   claim_C4_findPath_contract.2.2.2 map3 ⟨0, 0⟩ [ANode.mk ⟨0, 0⟩ 0 0 0 Option.none] []⟩

/-- C10: findPath never checks walkability of the start hex: for every
in-bounds coordinate c, findPath c c = [c] with no walkability condition,
and on the concrete map whose start field is water, findPath still leaves
the water start (only expanded neighbors are filtered by isWalkable). -/
theorem claim_C10_start_walkability_unchecked :
    (∀ (m : GameMap) (c : FieldCoords),
      isValidCoord m c = true → findPath m c c = Option.some [c]) ∧
    ((∃ f : MapField, getField mapWS ⟨0, 0⟩ = Option.some f ∧ f.terrain = TerrainType.water) ∧
      isWalkable mapWS ⟨0, 0⟩ = false ∧
      findPath mapWS ⟨0, 0⟩ ⟨0, 0⟩ = Option.some [⟨0, 0⟩] ∧
      findPath mapWS ⟨0, 0⟩ ⟨1, 0⟩ = Option.some [⟨0, 0⟩, ⟨1, 0⟩] ∧
      (⟨0, 0⟩ : FieldCoords) ≠ ⟨1, 0⟩) := by
  constructor
  · intro m c hc
    unfold findPath
    rw [if_neg (by simp [hc]), if_pos rfl]
  · refine ⟨⟨mkField TerrainType.water 0 ⟨0, 0⟩, by decide, rfl⟩, by decide, by decide, ?_, by decide⟩
    decide

/-- Witness for C10's universally quantified part at the water hex of the
concrete map. -/
theorem claim_C10_witness :
    isValidCoord mapWS ⟨0, 0⟩ = true ∧ findPath mapWS ⟨0, 0⟩ ⟨0, 0⟩ = Option.some [⟨0, 0⟩] :=
  ⟨by decide, claim_C10_start_walkability_unchecked.1 mapWS ⟨0, 0⟩ (by decide)⟩

/-! ## Helper lemmas: movement costs and walkable paths -/

lemma terrainBaseCost_bounds (t : TerrainType) :
    1 ≤ terrainBaseCost t ∧ ∃ bk : ℕ, terrainBaseCost t = (bk : ℚ) / 10 := by
  cases t
  case water => exact ⟨by norm_num [terrainBaseCost], 10, by norm_num [terrainBaseCost]⟩
  case grass => exact ⟨by norm_num [terrainBaseCost], 10, by norm_num [terrainBaseCost]⟩
  case desert => exact ⟨by norm_num [terrainBaseCost], 12, by norm_num [terrainBaseCost]⟩
  case mountain => exact ⟨by norm_num [terrainBaseCost], 20, by norm_num [terrainBaseCost]⟩
  case snow => exact ⟨by norm_num [terrainBaseCost], 15, by norm_num [terrainBaseCost]⟩
  case swamp => exact ⟨by norm_num [terrainBaseCost], 18, by norm_num [terrainBaseCost]⟩

/-- Every finite movement cost into a walkable field is a multiple of
1/10 and at least 1. -/
lemma getMovementCost_walkable (m : GameMap) (a b : FieldCoords) (hb : isWalkable m b = true) :
    ∃ q : ℚ, getMovementCost m a b = (q : WithTop ℚ) ∧ 1 ≤ q ∧ ∃ kk : ℕ, q = (kk : ℚ) / 10 := by
  unfold isWalkable at hb
  cases hf : getField m b with
  | none =>
    rw [hf] at hb
    exact absurd hb (by simp)
  | some f =>
    rw [hf] at hb
    have hterr : f.terrain ≠ TerrainType.water := by simpa using hb
    unfold getMovementCost
    rw [hf]
    dsimp only
    cases ht : f.terrain
    case water => exact absurd ht hterr
    all_goals
      obtain ⟨hb1, bk, hbk⟩ := terrainBaseCost_bounds f.terrain
      rw [ht] at hb1 hbk
      dsimp only
      cases hff : getField m a with
      | none =>
        dsimp only
        exact ⟨_, rfl, hb1, bk, hbk⟩
      | some ff =>
        dsimp only
        refine ⟨_, rfl, ?_, bk + 5 * (f.height - ff.height).natAbs, ?_⟩
        · have hnn : (0 : ℚ) ≤ ((f.height - ff.height).natAbs : ℚ) * (1 / 2) := by positivity
          linarith
        · rw [hbk]
          push_cast
          ring

lemma one_le_getMovementCost (m : GameMap) (a b : FieldCoords) :
    (1 : WithTop ℚ) ≤ getMovementCost m a b := by
  by_cases hb : isWalkable m b = true
  · obtain ⟨q, hq, h1, _⟩ := getMovementCost_walkable m a b hb
    rw [hq]
    exact_mod_cast h1
  · unfold isWalkable at hb
    unfold getMovementCost
    cases hf : getField m b with
    | none => exact le_top
    | some f =>
      rw [hf] at hb
      have hw : f.terrain = TerrainType.water := by
        by_contra hc
        exact hb (by simpa using hc)
      dsimp only
      rw [hw]
      exact le_top

lemma getMovementCost_nonneg (m : GameMap) (a b : FieldCoords) :
    (0 : WithTop ℚ) ≤ getMovementCost m a b :=
  le_trans (by norm_num) (one_le_getMovementCost m a b)

lemma pathCost_nonneg (m : GameMap) (p : List FieldCoords) : 0 ≤ pathCost m p := by
  match p with
  | [] => simp [pathCost]
  | [x] => simp [pathCost]
  | a :: b :: rest =>
    have ih := pathCost_nonneg m (b :: rest)
    have h1 := getMovementCost_nonneg m a b
    calc (0 : WithTop ℚ) = 0 + 0 := by norm_num
    _ ≤ getMovementCost m a b + pathCost m (b :: rest) := add_le_add h1 ih
    _ = pathCost m (a :: b :: rest) := rfl

lemma pathCost_snoc (m : GameMap) (p : List FieldCoords) (a b : FieldCoords)
    (h : p.getLast? = Option.some a) :
    pathCost m (p ++ [b]) = pathCost m p + getMovementCost m a b := by
  match p with
  | [] => simp at h
  | [x] =>
    simp only [List.getLast?_singleton, Option.some.injEq] at h
    subst h
    simp [pathCost]
  | x :: y :: rest =>
    have h2 : (y :: rest).getLast? = Option.some a := by
      rw [← h]
      rfl
    have ih := pathCost_snoc m (y :: rest) a b h2
    show getMovementCost m x y + pathCost m ((y :: rest) ++ [b]) = _
    rw [ih, ← add_assoc]
    rfl

lemma iwp_single (m : GameMap) (s : FieldCoords) : IsWalkablePath m s s [s] :=
  ⟨rfl, rfl, List.chain'_singleton s⟩

lemma iwp_ne_nil {m : GameMap} {s g : FieldCoords} {p : List FieldCoords}
    (h : IsWalkablePath m s g p) : p ≠ [] := by
  intro hq
  rw [hq] at h
  exact Option.noConfusion h.1

lemma iwp_snoc {m : GameMap} {s a b : FieldCoords} {p : List FieldCoords}
    (h : IsWalkablePath m s a p) (hs : WalkStep m a b) :
    IsWalkablePath m s b (p ++ [b]) := by
  obtain ⟨h1, h2, h3⟩ := h
  refine ⟨?_, ?_, ?_⟩
  · rw [List.head?_append_of_ne_nil]
    · exact h1
    · intro hq
      rw [hq] at h1
      exact Option.noConfusion h1
  · simp
  · rw [List.chain'_append]
    refine ⟨h3, List.chain'_singleton b, ?_⟩
    intro x hx y hy
    rw [h2] at hx
    rw [Option.mem_def, Option.some.injEq] at hx
    rw [List.head?_cons, Option.mem_def, Option.some.injEq] at hy
    rw [hx, hy] at hs
    exact hs

lemma iwp_start_eq {m : GameMap} {s g : FieldCoords} {p : List FieldCoords}
    (h : IsWalkablePath m s g p) (hlen : p.length = 1) : s = g := by
  match p with
  | [x] =>
    have h1 := h.1
    have h2 := h.2.1
    simp only [List.head?_cons, Option.some.injEq] at h1
    simp only [List.getLast?_singleton, Option.some.injEq] at h2
    rw [← h1, ← h2]
  | [] => simp at hlen
  | x :: y :: rest => simp at hlen

/-- Decompose a walkable path of length ≥ 2 into its prefix and last step. -/
lemma iwp_decompose {m : GameMap} {s g : FieldCoords} {p : List FieldCoords}
    (h : IsWalkablePath m s g p) (hlen : 2 ≤ p.length) :
    ∃ (q : List FieldCoords) (a : FieldCoords),
      p = q ++ [g] ∧ IsWalkablePath m s a q ∧ WalkStep m a g := by
  obtain ⟨h1, h2, h3⟩ := h
  have hne : p ≠ [] := by
    intro hq
    rw [hq] at hlen
    simp at hlen
  obtain ⟨q, hq⟩ : ∃ q, p = q ++ [p.getLast hne] := ⟨p.dropLast, (List.dropLast_append_getLast hne).symm⟩
  have hg : p.getLast hne = g := by
    have h5 := List.getLast?_eq_getLast p hne
    rw [h2] at h5
    exact (Option.some.injEq _ _).mp h5.symm
  rw [hg] at hq
  have hqne : q ≠ [] := by
    intro hq0
    rw [hq0] at hq
    rw [hq] at hlen
    simp at hlen
  have hchain := h3
  rw [hq, List.chain'_append] at hchain
  obtain ⟨hc1, _, hc3⟩ := hchain
  obtain ⟨a, ha⟩ : ∃ a, q.getLast? = Option.some a := by
    cases hql : q.getLast? with
    | none => exact absurd (List.getLast?_eq_none_iff.mp hql) hqne
    | some a => exact ⟨a, rfl⟩
  refine ⟨q, a, hq, ⟨?_, ha, hc1⟩, ?_⟩
  · rw [hq, List.head?_append_of_ne_nil] at h1
    · exact h1
    · exact hqne
  · exact hc3 a ha g rfl

/-- The total cost of a walkable path is a finite non-negative multiple
of 1/10. -/
lemma pathCost_tenths (m : GameMap) (p : List FieldCoords) (hp : List.Chain' (WalkStep m) p) :
    ∃ q : ℚ, pathCost m p = (q : WithTop ℚ) ∧ 0 ≤ q ∧ ∃ kk : ℕ, q = (kk : ℚ) / 10 := by
  match p with
  | [] => exact ⟨0, rfl, le_refl 0, 0, by norm_num⟩
  | [x] => exact ⟨0, rfl, le_refl 0, 0, by norm_num⟩
  | a :: b :: rest =>
    have hstep : WalkStep m a b := (List.chain'_cons.mp hp).1
    have hrest : List.Chain' (WalkStep m) (b :: rest) := (List.chain'_cons.mp hp).2
    obtain ⟨q1, hq1, hq1one, k1, hk1⟩ := getMovementCost_walkable m a b hstep.2.2
    obtain ⟨q2, hq2, hq2nn, k2, hk2⟩ := pathCost_tenths m (b :: rest) hrest
    refine ⟨q1 + q2, ?_, by linarith, k1 + k2, ?_⟩
    · show getMovementCost m a b + pathCost m (b :: rest) = _
      rw [hq1, hq2]
      exact_mod_cast rfl
    · rw [hk1, hk2]
      push_cast
      ring

/-! ## Helper lemmas: valid coordinates -/

lemma axialToOffset_offsetToAxial (col row : ℤ) :
    axialToOffset (offsetToAxial col row) = ⟨col, row⟩ := by
  simp [offsetToAxial, axialToOffset]

lemma offsetToAxial_axialToOffset (c : FieldCoords) :
    offsetToAxial (axialToOffset c).col (axialToOffset c).row = c := by
  cases c
  simp [offsetToAxial, axialToOffset]

lemma isValidCoord_iff {m : GameMap} {c : FieldCoords} : isValidCoord m c = true ↔
    0 ≤ (axialToOffset c).col ∧ 0 ≤ (axialToOffset c).row ∧
    (axialToOffset c).row < m.dimensions.height ∧ (axialToOffset c).col < m.dimensions.width := by
  unfold isValidCoord
  simp [Bool.and_eq_true, decide_eq_true_eq, and_assoc]

lemma mem_validCoordFinset {m : GameMap} {c : FieldCoords} :
    c ∈ validCoordFinset m ↔ isValidCoord m c = true := by
  unfold validCoordFinset
  rw [isValidCoord_iff]
  simp only [Finset.mem_image, Finset.mem_product, Finset.mem_Icc]
  constructor
  · rintro ⟨⟨col, row⟩, ⟨⟨h1, h2⟩, h3, h4⟩, rfl⟩
    rw [axialToOffset_offsetToAxial]
    dsimp only
    exact ⟨h1, h3, by omega, by omega⟩
  · intro h
    exact ⟨((axialToOffset c).col, (axialToOffset c).row),
      ⟨⟨h.1, by omega⟩, h.2.1, by omega⟩, offsetToAxial_axialToOffset c⟩

/-! ## Helper lemmas: the reachability flood, single relaxation step -/

lemma reachEntryOK_push {m : GameMap} {start v0 nc : FieldCoords} {c0 : WithTop ℚ}
    (maxCost : ℚ) (hc0 : ReachEntryOK m start maxCost (v0, c0)) (hstep : WalkStep m v0 nc)
    (hle : c0 + getMovementCost m v0 nc ≤ (maxCost : WithTop ℚ)) :
    ReachEntryOK m start maxCost (nc, c0 + getMovementCost m v0 nc) := by
  obtain ⟨hb, ⟨kk0, hk0⟩, p0, hp0, hcost0⟩ := hc0
  dsimp only at hb hk0 hp0 hcost0
  obtain ⟨qs, hqs, h1qs, ks, hks⟩ := getMovementCost_walkable m v0 nc hstep.2.2
  refine ⟨hle, ⟨kk0 + ks, ?_⟩, p0 ++ [nc], iwp_snoc hp0 hstep, ?_⟩
  · show c0 + getMovementCost m v0 nc = _
    rw [hk0, hqs, hks]
    rw [show ((((kk0 : ℚ) / 10 : ℚ)) : WithTop ℚ) + (((ks : ℚ) / 10 : ℚ) : WithTop ℚ) =
        ((((kk0 : ℚ) / 10 + (ks : ℚ) / 10 : ℚ)) : WithTop ℚ) from (WithTop.coe_add _ _).symm]
    congr 1
    push_cast
    ring
  · rw [pathCost_snoc m p0 v0 nc hp0.2.1, hcost0]

lemma reachEntryOK_nonneg {m : GameMap} {start : FieldCoords} {maxCost : ℚ}
    {e : FieldCoords × WithTop ℚ} (h : ReachEntryOK m start maxCost e) : 0 ≤ e.2 := by
  obtain ⟨_, ⟨kk, hk⟩, _⟩ := h
  rw [hk]
  exact_mod_cast by positivity

lemma reachRelax_spec (m : GameMap) (start : FieldCoords) (maxCost : ℚ)
    (v0 nc : FieldCoords) (c0 : WithTop ℚ) (q vis : List (FieldCoords × WithTop ℚ))
    (hnb : nc ∈ getNeighbors v0)
    (hc0 : ReachEntryOK m start maxCost (v0, c0))
    (hA1 : ∀ e ∈ q, ReachEntryOK m start maxCost e)
    (hA2 : ∀ e ∈ q, ∃ cv, alookup vis e.1 = Option.some cv ∧ cv ≤ e.2)
    (hA3 : ∀ v c, alookup vis v = Option.some c → ReachEntryOK m start maxCost (v, c))
    (hA4 : alookup vis start = Option.some 0) :
    (∀ e ∈ (reachRelax m maxCost v0 c0 (q, vis) nc).1, ReachEntryOK m start maxCost e) ∧
    (∀ e ∈ (reachRelax m maxCost v0 c0 (q, vis) nc).1,
      ∃ cv, alookup (reachRelax m maxCost v0 c0 (q, vis) nc).2 e.1 = Option.some cv ∧
        cv ≤ e.2) ∧
    (∀ v c, alookup (reachRelax m maxCost v0 c0 (q, vis) nc).2 v = Option.some c →
      ReachEntryOK m start maxCost (v, c)) ∧
    alookup (reachRelax m maxCost v0 c0 (q, vis) nc).2 start = Option.some 0 ∧
    (∀ e ∈ q, e ∈ (reachRelax m maxCost v0 c0 (q, vis) nc).1) ∧
    (∀ v c, alookup vis v = Option.some c →
      ∃ c2, alookup (reachRelax m maxCost v0 c0 (q, vis) nc).2 v = Option.some c2 ∧ c2 ≤ c) ∧
    (∀ v c2, alookup (reachRelax m maxCost v0 c0 (q, vis) nc).2 v = Option.some c2 →
      alookup vis v = Option.some c2 ∨ (v, c2) ∈ (reachRelax m maxCost v0 c0 (q, vis) nc).1) ∧
    (WalkStep m v0 nc →
      ReachRelaxedAt m maxCost (reachRelax m maxCost v0 c0 (q, vis) nc).2 v0 c0 nc) := by
  unfold reachRelax
  by_cases hguard : ¬(isValidCoord m nc = true) ∨ ¬(isWalkable m nc = true)
  · rw [if_pos hguard]
    refine ⟨hA1, hA2, hA3, hA4, fun e he => he, fun v c hc => ⟨c, hc, le_refl c⟩,
      fun v c2 hc2 => Or.inl hc2, ?_⟩
    intro hws
    exact absurd hws.2.1 (by
      rcases hguard with hg | hg
      · exact hg
      · exact absurd hws.2.2 hg)
  · rw [if_neg hguard]
    push_neg at hguard
    obtain ⟨hval, hwalk⟩ := hguard
    have hws : WalkStep m v0 nc := ⟨hnb, hval, hwalk⟩
    set newCost := c0 + getMovementCost m v0 nc with hnew
    have hnn : 0 ≤ newCost := by
      rw [hnew]
      have h1 := reachEntryOK_nonneg hc0
      have h2 := getMovementCost_nonneg m v0 nc
      calc (0 : WithTop ℚ) = 0 + 0 := by norm_num
      _ ≤ c0 + getMovementCost m v0 nc := add_le_add h1 h2
    by_cases hle : newCost ≤ (maxCost : WithTop ℚ)
    · rw [if_pos hle]
      have hok : ReachEntryOK m start maxCost (nc, newCost) :=
        reachEntryOK_push maxCost hc0 hws hle
      have hnc_ne_start_of_push : ∀ prev, alookup vis nc = prev →
          (prev = Option.none ∨ ∃ pc, prev = Option.some pc ∧ newCost < pc) → nc ≠ start := by
        intro prev hprev hpush heq
        subst heq
        rw [hA4] at hprev
        rcases hpush with h | ⟨pc, hpc, hlt⟩
        · rw [← hprev] at h
          exact Option.noConfusion h
        · rw [← hprev] at hpc
          have : pc = 0 := by
            injection hpc with h
            exact h.symm
          rw [this] at hlt
          exact absurd hnn (not_le.mpr hlt)
      cases hprev : alookup vis nc with
      | none =>
        dsimp only
        refine ⟨?_, ?_, ?_, ?_, ?_, ?_, ?_, ?_⟩
        · intro e he
          rcases List.mem_append.mp he with h | h
          · exact hA1 e h
          · rw [List.mem_singleton] at h
            rw [h]
            exact hok
        · intro e he
          rcases List.mem_append.mp he with h | h
          · obtain ⟨cv, hcv, hcvle⟩ := hA2 e h
            by_cases henc : e.1 = nc
            · rw [henc, hprev] at hcv
              exact Option.noConfusion hcv
            · exact ⟨cv, by rw [alookup_mapSet, if_neg henc]; exact hcv, hcvle⟩
          · rw [List.mem_singleton] at h
            rw [h]
            exact ⟨newCost, by rw [alookup_mapSet, if_pos rfl], le_refl _⟩
        · intro v c hc
          rw [alookup_mapSet] at hc
          by_cases hvnc : v = nc
          · rw [if_pos hvnc] at hc
            injection hc with hc
            rw [hvnc, ← hc]
            exact hok
          · rw [if_neg hvnc] at hc
            exact hA3 v c hc
        · have hne : start ≠ nc :=
            fun h => (hnc_ne_start_of_push Option.none hprev (Or.inl rfl)) h.symm
          rw [alookup_mapSet, if_neg hne]
          exact hA4
        · intro e he
          exact List.mem_append.mpr (Or.inl he)
        · intro v c hc
          by_cases hvnc : v = nc
          · rw [hvnc, hprev] at hc
            exact Option.noConfusion hc
          · exact ⟨c, by rw [alookup_mapSet, if_neg hvnc]; exact hc, le_refl c⟩
        · intro v c2 hc2
          rw [alookup_mapSet] at hc2
          by_cases hvnc : v = nc
          · rw [if_pos hvnc] at hc2
            injection hc2 with hc2
            refine Or.inr ?_
            rw [hvnc, ← hc2]
            exact List.mem_append.mpr (Or.inr (List.mem_singleton.mpr rfl))
          · rw [if_neg hvnc] at hc2
            exact Or.inl hc2
        · intro _
          refine Or.inr ⟨newCost, ?_, le_refl _⟩
          rw [alookup_mapSet, if_pos rfl]
      | some prev =>
        dsimp only
        by_cases hlt : newCost < prev
        · rw [if_pos hlt]
          refine ⟨?_, ?_, ?_, ?_, ?_, ?_, ?_, ?_⟩
          · intro e he
            rcases List.mem_append.mp he with h | h
            · exact hA1 e h
            · rw [List.mem_singleton] at h
              rw [h]
              exact hok
          · intro e he
            rcases List.mem_append.mp he with h | h
            · obtain ⟨cv, hcv, hcvle⟩ := hA2 e h
              by_cases henc : e.1 = nc
              · rw [henc, hprev] at hcv
                injection hcv with hcv
                refine ⟨newCost, by rw [alookup_mapSet, if_pos henc], ?_⟩
                rw [← hcv] at hcvle
                exact le_trans (le_of_lt hlt) hcvle
              · exact ⟨cv, by rw [alookup_mapSet, if_neg henc]; exact hcv, hcvle⟩
            · rw [List.mem_singleton] at h
              rw [h]
              exact ⟨newCost, by rw [alookup_mapSet, if_pos rfl], le_refl _⟩
          · intro v c hc
            rw [alookup_mapSet] at hc
            by_cases hvnc : v = nc
            · rw [if_pos hvnc] at hc
              injection hc with hc
              rw [hvnc, ← hc]
              exact hok
            · rw [if_neg hvnc] at hc
              exact hA3 v c hc
          · have hne : start ≠ nc := fun h =>
              (hnc_ne_start_of_push (Option.some prev) hprev (Or.inr ⟨prev, rfl, hlt⟩)) h.symm
            rw [alookup_mapSet, if_neg hne]
            exact hA4
          · intro e he
            exact List.mem_append.mpr (Or.inl he)
          · intro v c hc
            by_cases hvnc : v = nc
            · rw [hvnc, hprev] at hc
              injection hc with hc
              refine ⟨newCost, by rw [alookup_mapSet, if_pos hvnc], ?_⟩
              rw [← hc]
              exact le_of_lt hlt
            · exact ⟨c, by rw [alookup_mapSet, if_neg hvnc]; exact hc, le_refl c⟩
          · intro v c2 hc2
            rw [alookup_mapSet] at hc2
            by_cases hvnc : v = nc
            · rw [if_pos hvnc] at hc2
              injection hc2 with hc2
              refine Or.inr ?_
              rw [hvnc, ← hc2]
              exact List.mem_append.mpr (Or.inr (List.mem_singleton.mpr rfl))
            · rw [if_neg hvnc] at hc2
              exact Or.inl hc2
          · intro _
            refine Or.inr ⟨newCost, ?_, le_refl _⟩
            rw [alookup_mapSet, if_pos rfl]
        · rw [if_neg hlt]
          refine ⟨hA1, hA2, hA3, hA4, fun e he => he, fun v c hc => ⟨c, hc, le_refl c⟩,
            fun v c2 hc2 => Or.inl hc2, ?_⟩
          intro _
          exact Or.inr ⟨prev, hprev, le_of_not_lt hlt⟩
    · rw [if_neg hle]
      refine ⟨hA1, hA2, hA3, hA4, fun e he => he, fun v c hc => ⟨c, hc, le_refl c⟩,
        fun v c2 hc2 => Or.inl hc2, ?_⟩
      intro _
      exact Or.inl hle

lemma reachRelaxedAt_mono {m : GameMap} {maxCost : ℚ} {vis1 vis2 : List (FieldCoords × WithTop ℚ)}
    {v0 nc : FieldCoords} {c0 : WithTop ℚ}
    (h : ReachRelaxedAt m maxCost vis1 v0 c0 nc)
    (hmono : ∀ v c, alookup vis1 v = Option.some c →
      ∃ c2, alookup vis2 v = Option.some c2 ∧ c2 ≤ c) :
    ReachRelaxedAt m maxCost vis2 v0 c0 nc := by
  rcases h with h | ⟨c2, hc2, hle⟩
  · exact Or.inl h
  · obtain ⟨c3, hc3, hle3⟩ := hmono nc c2 hc2
    exact Or.inr ⟨c3, hc3, le_trans hle3 hle⟩

lemma reachFold_spec (m : GameMap) (start : FieldCoords) (maxCost : ℚ)
    (v0 : FieldCoords) (c0 : WithTop ℚ) (hc0 : ReachEntryOK m start maxCost (v0, c0)) :
    ∀ (ncs : List FieldCoords), (∀ nc ∈ ncs, nc ∈ getNeighbors v0) →
    ∀ (q vis : List (FieldCoords × WithTop ℚ)),
    (∀ e ∈ q, ReachEntryOK m start maxCost e) →
    (∀ e ∈ q, ∃ cv, alookup vis e.1 = Option.some cv ∧ cv ≤ e.2) →
    (∀ v c, alookup vis v = Option.some c → ReachEntryOK m start maxCost (v, c)) →
    (alookup vis start = Option.some 0) →
    (∀ e ∈ (ncs.foldl (reachRelax m maxCost v0 c0) (q, vis)).1,
      ReachEntryOK m start maxCost e) ∧
    (∀ e ∈ (ncs.foldl (reachRelax m maxCost v0 c0) (q, vis)).1,
      ∃ cv, alookup (ncs.foldl (reachRelax m maxCost v0 c0) (q, vis)).2 e.1 =
        Option.some cv ∧ cv ≤ e.2) ∧
    (∀ v c, alookup (ncs.foldl (reachRelax m maxCost v0 c0) (q, vis)).2 v = Option.some c →
      ReachEntryOK m start maxCost (v, c)) ∧
    (alookup (ncs.foldl (reachRelax m maxCost v0 c0) (q, vis)).2 start = Option.some 0) ∧
    (∀ e ∈ q, e ∈ (ncs.foldl (reachRelax m maxCost v0 c0) (q, vis)).1) ∧
    (∀ v c, alookup vis v = Option.some c →
      ∃ c2, alookup (ncs.foldl (reachRelax m maxCost v0 c0) (q, vis)).2 v =
        Option.some c2 ∧ c2 ≤ c) ∧
    (∀ v c2, alookup (ncs.foldl (reachRelax m maxCost v0 c0) (q, vis)).2 v = Option.some c2 →
      alookup vis v = Option.some c2 ∨
        (v, c2) ∈ (ncs.foldl (reachRelax m maxCost v0 c0) (q, vis)).1) ∧
    (∀ nc ∈ ncs, WalkStep m v0 nc →
      ReachRelaxedAt m maxCost (ncs.foldl (reachRelax m maxCost v0 c0) (q, vis)).2 v0 c0 nc) := by
  intro ncs
  induction ncs with
  | nil =>
    intro _ q vis hA1 hA2 hA3 hA4
    exact ⟨hA1, hA2, hA3, hA4, fun e he => he, fun v c hc => ⟨c, hc, le_refl c⟩,
      fun v c2 hc2 => Or.inl hc2, fun nc hnc => absurd hnc (List.not_mem_nil nc)⟩
  | cons nc ncs ih =>
    intro hncs q vis hA1 hA2 hA3 hA4
    have hnb : nc ∈ getNeighbors v0 := hncs nc (List.mem_cons_self nc ncs)
    obtain ⟨B1, B2, B3, B4, B5, B6, B7, B8⟩ :=
      reachRelax_spec m start maxCost v0 nc c0 q vis hnb hc0 hA1 hA2 hA3 hA4
    have hfold : (nc :: ncs).foldl (reachRelax m maxCost v0 c0) (q, vis) =
        ncs.foldl (reachRelax m maxCost v0 c0) (reachRelax m maxCost v0 c0 (q, vis) nc) := rfl
    rw [hfold]
    have hpair : reachRelax m maxCost v0 c0 (q, vis) nc =
        ((reachRelax m maxCost v0 c0 (q, vis) nc).1,
          (reachRelax m maxCost v0 c0 (q, vis) nc).2) := rfl
    rw [hpair]
    obtain ⟨C1, C2, C3, C4, C5, C6, C7, C8⟩ :=
      ih (fun x hx => hncs x (List.mem_cons_of_mem nc hx))
        (reachRelax m maxCost v0 c0 (q, vis) nc).1
        (reachRelax m maxCost v0 c0 (q, vis) nc).2 B1 B2 B3 B4
    refine ⟨C1, C2, C3, C4, ?_, ?_, ?_, ?_⟩
    · intro e he
      exact C5 e (B5 e he)
    · intro v c hc
      obtain ⟨c1, hc1, hle1⟩ := B6 v c hc
      obtain ⟨c2, hc2, hle2⟩ := C6 v c1 hc1
      exact ⟨c2, hc2, le_trans hle2 hle1⟩
    · intro v c2 hc2
      rcases C7 v c2 hc2 with h | h
      · rcases B7 v c2 h with h2 | h2
        · exact Or.inl h2
        · exact Or.inr (C5 _ h2)
      · exact Or.inr h
    · intro x hx hws
      rcases List.mem_cons.mp hx with h | h
      · subst h
        exact reachRelaxedAt_mono (B8 hws) C6
      · exact C8 x h hws

lemma reachLoop_cons (m : GameMap) (maxCost : ℚ) (fuel : ℕ) (cur : FieldCoords × WithTop ℚ)
    (rest vis : List (FieldCoords × WithTop ℚ)) (reach : List FieldCoords) :
    reachLoop m maxCost (fuel + 1) (cur :: rest) vis reach =
      reachLoop m maxCost fuel
        ((getNeighbors cur.1).foldl (reachRelax m maxCost cur.1 cur.2) (rest, vis)).1
        ((getNeighbors cur.1).foldl (reachRelax m maxCost cur.1 cur.2) (rest, vis)).2
        (if cur.2 ≤ (maxCost : WithTop ℚ) then reach ++ [cur.1] else reach) := rfl

lemma reachStep_preserve (m : GameMap) (start : FieldCoords) (maxCost : ℚ)
    (cur : FieldCoords × WithTop ℚ) (rest vis : List (FieldCoords × WithTop ℚ))
    (reach : List FieldCoords)
    (hinv : ReachInv m start maxCost (cur :: rest) vis reach) :
    cur.2 ≤ (maxCost : WithTop ℚ) ∧
    ReachInv m start maxCost
      ((getNeighbors cur.1).foldl (reachRelax m maxCost cur.1 cur.2) (rest, vis)).1
      ((getNeighbors cur.1).foldl (reachRelax m maxCost cur.1 cur.2) (rest, vis)).2
      (reach ++ [cur.1]) := by
  have hc0 : ReachEntryOK m start maxCost (cur.1, cur.2) := by
    have := hinv.qOK cur (List.mem_cons_self cur rest)
    exact this
  obtain ⟨D1, D2, D3, D4, D5, D6, D7, D8⟩ :=
    reachFold_spec m start maxCost cur.1 cur.2 hc0 (getNeighbors cur.1) (fun _ h => h) rest vis
      (fun e he => hinv.qOK e (List.mem_cons_of_mem cur he))
      (fun e he => hinv.qVis e (List.mem_cons_of_mem cur he))
      hinv.vOK hinv.vStart
  refine ⟨hc0.1, ?_⟩
  refine ⟨D1, D2, D3, D4, ?_, ?_, ?_⟩
  · intro v c hc
    rcases D7 v c hc with hold | hnew
    · rcases hinv.vRelaxed v c hold with hq | hrel
      · rcases List.mem_cons.mp hq with hcur | hrest
        · refine Or.inr ?_
          intro nc hws
          have hv : v = cur.1 := congrArg Prod.fst hcur
          have hcc : c = cur.2 := congrArg Prod.snd hcur
          rw [hv, hcc]
          rw [hv] at hws
          exact D8 nc hws.1 hws
        · exact Or.inl (D5 _ hrest)
      · refine Or.inr ?_
        intro nc hws
        exact reachRelaxedAt_mono (hrel nc hws) D6
    · exact Or.inl hnew
  · intro v c hc
    rcases D7 v c hc with hold | hnew
    · rcases hinv.vReach v c hold with hr | ⟨e, he, hev⟩
      · exact Or.inl (List.mem_append.mpr (Or.inl hr))
      · rcases List.mem_cons.mp he with hcur | hrest
        · refine Or.inl (List.mem_append.mpr (Or.inr ?_))
          rw [← hev, hcur]
          exact List.mem_singleton.mpr rfl
        · exact Or.inr ⟨e, D5 _ hrest, hev⟩
    · exact Or.inr ⟨(v, c), hnew, rfl⟩
  · intro v hv
    rcases List.mem_append.mp hv with h | h
    · exact hinv.rOK v h
    · rw [List.mem_singleton] at h
      obtain ⟨hb, _, p, hp, hcost⟩ := hc0
      refine ⟨p, ?_, ?_⟩
      · rw [h]
        exact hp
      · rw [hcost]
        exact hb

lemma reachLoop_spec (m : GameMap) (start : FieldCoords) (maxCost : ℚ) :
    ∀ (fuel : ℕ) (qu vis : List (FieldCoords × WithTop ℚ)) (reach : List FieldCoords),
    ReachInv m start maxCost qu vis reach →
    ReachInv m start maxCost (reachLoop m maxCost fuel qu vis reach).1
      (reachLoop m maxCost fuel qu vis reach).2.1 (reachLoop m maxCost fuel qu vis reach).2.2 ∧
    (∀ x ∈ reach, x ∈ (reachLoop m maxCost fuel qu vis reach).2.2) := by
  intro fuel
  induction fuel with
  | zero =>
    intro qu vis reach hinv
    exact ⟨hinv, fun x hx => hx⟩
  | succ f ih =>
    intro qu vis reach hinv
    match qu with
    | [] => exact ⟨hinv, fun x hx => hx⟩
    | cur :: rest =>
      obtain ⟨hle, hinv2⟩ := reachStep_preserve m start maxCost cur rest vis reach hinv
      rw [reachLoop_cons, if_pos hle]
      obtain ⟨h1, h2⟩ := ih _ _ _ hinv2
      refine ⟨h1, ?_⟩
      intro x hx
      exact h2 x (List.mem_append.mpr (Or.inl hx))

/-! ## Helper lemmas: termination measure of the reachability flood -/

lemma rat_floor_eq_intFloor (q : ℚ) : q.floor = ⌊q⌋ := rfl

lemma costIdx_tenths (kk : ℕ) : costIdx ((((kk : ℚ) / 10 : ℚ)) : WithTop ℚ) = kk := by
  unfold costIdx
  rw [WithTop.untop'_coe]
  rw [show (10 : ℚ) * ((kk : ℚ) / 10) = (kk : ℚ) by ring]
  rw [rat_floor_eq_intFloor, Int.floor_natCast]
  exact Int.toNat_natCast kk

lemma sum_residual_set (m : GameMap) (maxCost : ℚ) (vis : List (FieldCoords × WithTop ℚ))
    (nc : FieldCoords) (c : WithTop ℚ) (hval : isValidCoord m nc = true)
    (hdec : costIdx c < reachResidual maxCost vis nc) :
    (∑ v ∈ validCoordFinset m, reachResidual maxCost (mapSet vis nc c) v) + 1 ≤
      ∑ v ∈ validCoordFinset m, reachResidual maxCost vis v := by
  have hmem : nc ∈ validCoordFinset m := mem_validCoordFinset.mpr hval
  have hcong : ∀ v ∈ (validCoordFinset m).erase nc,
      reachResidual maxCost (mapSet vis nc c) v = reachResidual maxCost vis v := by
    intro v hv
    have hne : v ≠ nc := Finset.ne_of_mem_erase hv
    unfold reachResidual
    rw [alookup_mapSet, if_neg hne]
  have hnew : reachResidual maxCost (mapSet vis nc c) nc = costIdx c := by
    unfold reachResidual
    rw [alookup_mapSet, if_pos rfl]
  have e1 : (∑ v ∈ validCoordFinset m, reachResidual maxCost (mapSet vis nc c) v) =
      costIdx c + ∑ v ∈ (validCoordFinset m).erase nc, reachResidual maxCost vis v := by
    rw [← Finset.add_sum_erase _ _ hmem, hnew]
    congr 1
    exact Finset.sum_congr rfl hcong
  have e2 : (∑ v ∈ validCoordFinset m, reachResidual maxCost vis v) =
      reachResidual maxCost vis nc + ∑ v ∈ (validCoordFinset m).erase nc,
        reachResidual maxCost vis v := (Finset.add_sum_erase _ _ hmem).symm
  rw [e1, e2]
  omega

lemma reachRelax_measure (m : GameMap) (start : FieldCoords) (maxCost : ℚ)
    (v0 nc : FieldCoords) (c0 : WithTop ℚ) (q vis : List (FieldCoords × WithTop ℚ))
    (hnb : nc ∈ getNeighbors v0)
    (hc0 : ReachEntryOK m start maxCost (v0, c0))
    (hA3 : ∀ v c, alookup vis v = Option.some c → ReachEntryOK m start maxCost (v, c)) :
    reachMeasure m maxCost (reachRelax m maxCost v0 c0 (q, vis) nc).1
      (reachRelax m maxCost v0 c0 (q, vis) nc).2 ≤ reachMeasure m maxCost q vis := by
  unfold reachRelax
  by_cases hguard : ¬(isValidCoord m nc = true) ∨ ¬(isWalkable m nc = true)
  · rw [if_pos hguard]
  · rw [if_neg hguard]
    push_neg at hguard
    obtain ⟨hval, hwalk⟩ := hguard
    have hws : WalkStep m v0 nc := ⟨hnb, hval, hwalk⟩
    by_cases hle : c0 + getMovementCost m v0 nc ≤ (maxCost : WithTop ℚ)
    · rw [if_pos hle]
      have hok : ReachEntryOK m start maxCost (nc, c0 + getMovementCost m v0 nc) :=
        reachEntryOK_push maxCost hc0 hws hle
      obtain ⟨hb, ⟨kk, hkk⟩, _⟩ := hok
      dsimp only at hb hkk
      have hkmax : kk ≤ (10 * maxCost).floor.toNat := by
        rw [rat_floor_eq_intFloor]
        rw [hkk] at hb
        have hb2 : ((kk : ℚ) / 10) ≤ maxCost := by exact_mod_cast hb
        have hb3 : ((kk : ℤ) : ℚ) ≤ 10 * maxCost := by push_cast; linarith
        have hb4 : (kk : ℤ) ≤ ⌊10 * maxCost⌋ := Int.le_floor.mpr hb3
        omega
      have hidx : costIdx (c0 + getMovementCost m v0 nc) = kk := by
        rw [hkk]
        exact costIdx_tenths kk
      cases hprev : alookup vis nc with
      | none =>
        dsimp only
        have hdec : costIdx (c0 + getMovementCost m v0 nc) < reachResidual maxCost vis nc := by
          rw [hidx]
          unfold reachResidual
          rw [hprev]
          dsimp only
          omega
        have hsum := sum_residual_set m maxCost vis nc _ hval hdec
        unfold reachMeasure
        simp only [List.length_append, List.length_singleton]
        omega
      | some prev =>
        dsimp only
        by_cases hlt : c0 + getMovementCost m v0 nc < prev
        · rw [if_pos hlt]
          obtain ⟨_, ⟨jj, hjj⟩, _⟩ := hA3 nc prev hprev
          dsimp only at hjj
          have hdec : costIdx (c0 + getMovementCost m v0 nc) < reachResidual maxCost vis nc := by
            rw [hidx]
            unfold reachResidual
            rw [hprev]
            dsimp only
            rw [hjj, costIdx_tenths]
            rw [hkk, hjj] at hlt
            have hlt2 : ((kk : ℚ) / 10) < ((jj : ℚ) / 10) := by exact_mod_cast hlt
            have : (kk : ℚ) < (jj : ℚ) := by linarith
            exact_mod_cast this
          have hsum := sum_residual_set m maxCost vis nc _ hval hdec
          unfold reachMeasure
          simp only [List.length_append, List.length_singleton]
          omega
        · rw [if_neg hlt]
    · rw [if_neg hle]

lemma reachFold_measure (m : GameMap) (start : FieldCoords) (maxCost : ℚ)
    (v0 : FieldCoords) (c0 : WithTop ℚ) (hc0 : ReachEntryOK m start maxCost (v0, c0)) :
    ∀ (ncs : List FieldCoords), (∀ nc ∈ ncs, nc ∈ getNeighbors v0) →
    ∀ (q vis : List (FieldCoords × WithTop ℚ)),
    (∀ e ∈ q, ReachEntryOK m start maxCost e) →
    (∀ e ∈ q, ∃ cv, alookup vis e.1 = Option.some cv ∧ cv ≤ e.2) →
    (∀ v c, alookup vis v = Option.some c → ReachEntryOK m start maxCost (v, c)) →
    (alookup vis start = Option.some 0) →
    reachMeasure m maxCost (ncs.foldl (reachRelax m maxCost v0 c0) (q, vis)).1
      (ncs.foldl (reachRelax m maxCost v0 c0) (q, vis)).2 ≤ reachMeasure m maxCost q vis := by
  intro ncs
  induction ncs with
  | nil =>
    intro _ q vis _ _ _ _
    exact le_refl _
  | cons nc ncs ih =>
    intro hncs q vis hA1 hA2 hA3 hA4
    have hnb : nc ∈ getNeighbors v0 := hncs nc (List.mem_cons_self nc ncs)
    obtain ⟨B1, B2, B3, B4, _, _, _, _⟩ :=
      reachRelax_spec m start maxCost v0 nc c0 q vis hnb hc0 hA1 hA2 hA3 hA4
    have hstep := reachRelax_measure m start maxCost v0 nc c0 q vis hnb hc0 hA3
    have hfold : (nc :: ncs).foldl (reachRelax m maxCost v0 c0) (q, vis) =
        ncs.foldl (reachRelax m maxCost v0 c0)
          ((reachRelax m maxCost v0 c0 (q, vis) nc).1,
            (reachRelax m maxCost v0 c0 (q, vis) nc).2) := rfl
    rw [hfold]
    exact le_trans
      (ih (fun x hx => hncs x (List.mem_cons_of_mem nc hx))
        (reachRelax m maxCost v0 c0 (q, vis) nc).1
        (reachRelax m maxCost v0 c0 (q, vis) nc).2 B1 B2 B3 B4)
      hstep

lemma reachLoop_drains (m : GameMap) (start : FieldCoords) (maxCost : ℚ) :
    ∀ (fuel : ℕ) (qu vis : List (FieldCoords × WithTop ℚ)) (reach : List FieldCoords),
    ReachInv m start maxCost qu vis reach →
    reachMeasure m maxCost qu vis < fuel →
    (reachLoop m maxCost fuel qu vis reach).1 = [] := by
  intro fuel
  induction fuel with
  | zero =>
    intro qu vis reach _ hm
    omega
  | succ f ih =>
    intro qu vis reach hinv hm
    match qu with
    | [] => rfl
    | cur :: rest =>
      obtain ⟨hle, hinv2⟩ := reachStep_preserve m start maxCost cur rest vis reach hinv
      rw [reachLoop_cons, if_pos hle]
      refine ih _ _ _ hinv2 ?_
      have hc0 : ReachEntryOK m start maxCost (cur.1, cur.2) :=
        hinv.qOK cur (List.mem_cons_self cur rest)
      have hfm := reachFold_measure m start maxCost cur.1 cur.2 hc0 (getNeighbors cur.1)
        (fun _ h => h) rest vis
        (fun e he => hinv.qOK e (List.mem_cons_of_mem cur he))
        (fun e he => hinv.qVis e (List.mem_cons_of_mem cur he))
        hinv.vOK hinv.vStart
      have hlen : reachMeasure m maxCost rest vis + 1 = reachMeasure m maxCost (cur :: rest) vis := by
        unfold reachMeasure
        simp only [List.length_cons]
        omega
      omega

/-! ## Helper lemmas: initial state and final-state reasoning -/

lemma alookup_singleton {κ α : Type} [DecidableEq κ] (k k2 : κ) (v : α) :
    alookup [(k, v)] k2 = if k = k2 then Option.some v else Option.none := by
  by_cases h : k = k2
  · subst h
    simp [alookup]
  · rw [if_neg h]
    unfold alookup
    rw [List.find?_eq_none.mpr]
    · rfl
    · intro x hx
      rw [List.mem_singleton] at hx
      subst hx
      simpa using h

lemma reachInv_init (m : GameMap) (start : FieldCoords) (maxCost : ℚ) (h0 : 0 ≤ maxCost) :
    ReachInv m start maxCost [(start, 0)] [(start, 0)] [] := by
  have hOK : ReachEntryOK m start maxCost (start, (0 : WithTop ℚ)) := by
    refine ⟨?_, ⟨0, by norm_num⟩, [start], iwp_single m start, rfl⟩
    show (0 : WithTop ℚ) ≤ (maxCost : WithTop ℚ)
    exact_mod_cast h0
  have hlook : ∀ v c, alookup [(start, (0 : WithTop ℚ))] v = Option.some c →
      v = start ∧ c = 0 := by
    intro v c hc
    rw [alookup_singleton] at hc
    by_cases h : start = v
    · rw [if_pos h] at hc
      injection hc with hc
      exact ⟨h.symm, hc.symm⟩
    · rw [if_neg h] at hc
      exact Option.noConfusion hc
  refine ⟨?_, ?_, ?_, ?_, ?_, ?_, ?_⟩
  · intro e he
    rw [List.mem_singleton] at he
    rw [he]
    exact hOK
  · intro e he
    rw [List.mem_singleton] at he
    rw [he]
    exact ⟨0, by rw [alookup_singleton, if_pos rfl], le_refl _⟩
  · intro v c hc
    obtain ⟨hv, hcc⟩ := hlook v c hc
    rw [hv, hcc]
    exact hOK
  · rw [alookup_singleton, if_pos rfl]
  · intro v c hc
    obtain ⟨hv, hcc⟩ := hlook v c hc
    rw [hv, hcc]
    exact Or.inl (List.mem_singleton.mpr rfl)
  · intro v c hc
    obtain ⟨hv, _⟩ := hlook v c hc
    exact Or.inr ⟨(start, 0), List.mem_singleton.mpr rfl, hv.symm⟩
  · intro v hv
    exact absurd hv (List.not_mem_nil v)

lemma costIdx_zero : costIdx (0 : WithTop ℚ) = 0 := by
  unfold costIdx
  rw [show ((0 : WithTop ℚ)) = (((0 : ℚ)) : WithTop ℚ) from rfl, WithTop.untop'_coe,
    rat_floor_eq_intFloor]
  norm_num

lemma reachMeasure_init (m : GameMap) (start : FieldCoords) (maxCost : ℚ) :
    reachMeasure m maxCost [(start, 0)] [(start, 0)] < reachFuel m maxCost := by
  unfold reachMeasure reachFuel
  have hres : ∀ v ∈ validCoordFinset m,
      reachResidual maxCost [(start, (0 : WithTop ℚ))] v ≤ (10 * maxCost).floor.toNat + 1 := by
    intro v _
    unfold reachResidual
    rw [alookup_singleton]
    by_cases h : start = v
    · rw [if_pos h]
      dsimp only
      rw [costIdx_zero]
      omega
    · rw [if_neg h]
  have hsum : (∑ v ∈ validCoordFinset m, reachResidual maxCost [(start, (0 : WithTop ℚ))] v) ≤
      (validCoordFinset m).card * ((10 * maxCost).floor.toNat + 1) := by
    simpa [smul_eq_mul] using Finset.sum_le_card_nsmul (validCoordFinset m)
      (reachResidual maxCost [(start, (0 : WithTop ℚ))]) ((10 * maxCost).floor.toNat + 1) hres
  have hcard : (validCoordFinset m).card ≤
      m.dimensions.width.toNat * m.dimensions.height.toNat := by
    unfold validCoordFinset
    refine le_trans (Finset.card_image_le) ?_
    rw [Finset.card_product, Int.card_Icc, Int.card_Icc]
    have h1 : (m.dimensions.width - 1 + 1 - 0).toNat = m.dimensions.width.toNat := by omega
    have h2 : (m.dimensions.height - 1 + 1 - 0).toNat = m.dimensions.height.toNat := by omega
    rw [h1, h2]
  have := Nat.mul_le_mul_right ((10 * maxCost).floor.toNat + 1) hcard
  simp only [List.length_singleton]
  omega

/-- Completeness of the final relaxed visited map: every walkable path
within budget ends at a visited hex with a recorded cost not above the
path cost. -/
lemma reach_complete_aux (m : GameMap) (start : FieldCoords) (maxCost : ℚ)
    (vis : List (FieldCoords × WithTop ℚ))
    (hstart : alookup vis start = Option.some 0)
    (hrel : ∀ v c, alookup vis v = Option.some c →
      ∀ nc, WalkStep m v nc → ReachRelaxedAt m maxCost vis v c nc) :
    ∀ (p : List FieldCoords) (v : FieldCoords), IsWalkablePath m start v p →
      pathCost m p ≤ (maxCost : WithTop ℚ) →
      ∃ c, alookup vis v = Option.some c ∧ c ≤ pathCost m p := by
  intro p
  induction p using List.reverseRecOn with
  | nil =>
    intro v hp _
    exact absurd rfl (iwp_ne_nil hp)
  | append_singleton l b ihl =>
    intro v hp hbudget
    by_cases hl0 : l = []
    · subst hl0
      have hv : start = v := iwp_start_eq hp (by rfl)
      have hc : pathCost m ([] ++ [b]) = 0 := rfl
      rw [hc]
      exact ⟨0, by rw [← hv]; exact hstart, le_refl 0⟩
    · have hlen : 2 ≤ (l ++ [b]).length := by
        cases l with
        | nil => exact absurd rfl hl0
        | cons x ls =>
          simp only [List.cons_append, List.length_cons, List.length_append,
            List.length_singleton]
          omega
      obtain ⟨q, a, hq, hqa, hstep⟩ := iwp_decompose hp hlen
      obtain ⟨hlq, hbveq⟩ := List.append_inj' hq rfl
      have hvb : v = b := by
        injection hbveq with h1
        exact h1.symm
      subst hvb
      have hql2 : IsWalkablePath m start a l := by
        rw [hlq]
        exact hqa
      have hcost : pathCost m (l ++ [v]) = pathCost m l + getMovementCost m a v := by
        rw [hlq]
        exact pathCost_snoc m q a v hqa.2.1
      have hstepc := getMovementCost_nonneg m a v
      have hbl : pathCost m l ≤ (maxCost : WithTop ℚ) := by
        refine le_trans ?_ hbudget
        rw [hcost]
        exact le_add_of_nonneg_right hstepc
      obtain ⟨ca, hca, hcale⟩ := ihl a hql2 hbl
      rcases hrel a ca hca v hstep with hbad | ⟨c2, hc2, hle2⟩
      · exfalso
        apply hbad
        have h1 : ca + getMovementCost m a v ≤ pathCost m l + getMovementCost m a v :=
          add_le_add_right hcale _
        refine le_trans h1 ?_
        rw [← hcost]
        exact hbudget
      · refine ⟨c2, hc2, ?_⟩
        refine le_trans hle2 ?_
        rw [hcost]
        exact add_le_add_right hcale _

lemma reachRelax_zero_noop (m : GameMap) (v0 : FieldCoords)
    (st : List (FieldCoords × WithTop ℚ) × List (FieldCoords × WithTop ℚ)) (nc : FieldCoords) :
    reachRelax m 0 v0 0 st nc = st := by
  unfold reachRelax
  by_cases hguard : ¬(isValidCoord m nc = true) ∨ ¬(isWalkable m nc = true)
  · rw [if_pos hguard]
  · rw [if_neg hguard]
    have h1 : (1 : WithTop ℚ) ≤ getMovementCost m v0 nc := one_le_getMovementCost m v0 nc
    have hno : ¬((0 : WithTop ℚ) + getMovementCost m v0 nc ≤ (((0 : ℚ)) : WithTop ℚ)) := by
      rw [zero_add]
      intro hc
      have h2 : (1 : WithTop ℚ) ≤ (((0 : ℚ)) : WithTop ℚ) := le_trans h1 hc
      have h3 : (1 : ℚ) ≤ (0 : ℚ) := by exact_mod_cast h2
      norm_num at h3
    rw [if_neg hno]

lemma foldl_noop {α β : Type} (f : α → β → α) (st : α) (l : List β)
    (h : ∀ x, f st x = st) : l.foldl f st = st := by
  induction l with
  | nil => rfl
  | cons x xs ih =>
    show List.foldl f (f st x) xs = st
    rw [h x]
    exact ih

lemma getReachableHexes_zero (m : GameMap) (start : FieldCoords) :
    getReachableHexes m start 0 = [start] := by
  unfold getReachableHexes
  obtain ⟨f, hf⟩ : ∃ f, reachFuel m 0 = f + 2 := ⟨_, rfl⟩
  rw [hf]
  rw [show f + 2 = (f + 1) + 1 from rfl, reachLoop_cons]
  rw [if_pos (by
    show (0 : WithTop ℚ) ≤ (((0 : ℚ)) : WithTop ℚ)
    exact_mod_cast le_refl (0 : ℚ))]
  rw [foldl_noop _ _ _ (fun nc => reachRelax_zero_noop m start ([], [(start, 0)]) nc)]
  rfl

/-- C2 counterexample: on the concrete ridge map, getReachableHexes emits
several coordinates more than once — a hex first dequeued through the
expensive ridge and later re-discovered through the cheap detour is pushed
and emitted twice — refuting "each coordinate appearing exactly once". -/
theorem claim_C2_counterexample :
    ¬(getReachableHexes mapDup ⟨0, 0⟩ 10).Nodup := by
  intro hn
  have hcount : (getReachableHexes mapDup ⟨0, 0⟩ 10).count ⟨2, 0⟩ = 2 := by
    with_unfolding_all decide
  have h1 := List.nodup_iff_count_le_one.mp hn ⟨2, 0⟩
  rw [hcount] at h1
  omega

/-- C2 (amended): getReachableHexes(start, maxCost) with maxCost ≥ 0
contains exactly the hexes reachable from start through walkable fields
with accumulated cost ≤ maxCost (as a set: coordinates can repeat), it
contains start itself (at cost 0), and getReachableHexes(start, 0) is
exactly [start]. -/
theorem claim_C2_amended :
    (∀ (m : GameMap) (start : FieldCoords) (maxCost : ℚ), 0 ≤ maxCost →
      ((∀ v : FieldCoords, v ∈ getReachableHexes m start maxCost ↔
          ∃ p, IsWalkablePath m start v p ∧ pathCost m p ≤ (maxCost : WithTop ℚ)) ∧
        start ∈ getReachableHexes m start maxCost)) ∧
    (∀ (m : GameMap) (start : FieldCoords), getReachableHexes m start 0 = [start]) := by
  constructor
  · intro m start maxCost h0
    have hinit := reachInv_init m start maxCost h0
    obtain ⟨hfin, _⟩ := reachLoop_spec m start maxCost (reachFuel m maxCost)
      [(start, 0)] [(start, 0)] [] hinit
    have hdrain := reachLoop_drains m start maxCost (reachFuel m maxCost)
      [(start, 0)] [(start, 0)] [] hinit (reachMeasure_init m start maxCost)
    have hvisreach : ∀ v c,
        alookup (reachLoop m maxCost (reachFuel m maxCost) [(start, 0)] [(start, 0)] []).2.1 v =
          Option.some c →
        v ∈ (reachLoop m maxCost (reachFuel m maxCost) [(start, 0)] [(start, 0)] []).2.2 := by
      intro v c hc
      rcases hfin.vReach v c hc with h | ⟨e, he, _⟩
      · exact h
      · rw [hdrain] at he
        exact absurd he (List.not_mem_nil e)
    have hrelaxed : ∀ v c,
        alookup (reachLoop m maxCost (reachFuel m maxCost) [(start, 0)] [(start, 0)] []).2.1 v =
          Option.some c →
        ∀ nc, WalkStep m v nc →
          ReachRelaxedAt m maxCost
            (reachLoop m maxCost (reachFuel m maxCost) [(start, 0)] [(start, 0)] []).2.1 v c nc := by
      intro v c hc
      rcases hfin.vRelaxed v c hc with h | h
      · rw [hdrain] at h
        exact absurd h (List.not_mem_nil (v, c))
      · exact h
    have hcomplete := reach_complete_aux m start maxCost
      (reachLoop m maxCost (reachFuel m maxCost) [(start, 0)] [(start, 0)] []).2.1
      hfin.vStart hrelaxed
    constructor
    · intro v
      constructor
      · intro hv
        exact hfin.rOK v hv
      · rintro ⟨p, hp, hcost⟩
        obtain ⟨c, hc, _⟩ := hcomplete p v hp hcost
        exact hvisreach v c hc
    · exact hvisreach start 0 hfin.vStart
  · exact getReachableHexes_zero

/-- Witness for C2's amended statement on the 3×3 grass map with budget 2. -/
theorem claim_C2_witness :
    (0 : ℚ) ≤ 2 ∧ (⟨0, 0⟩ : FieldCoords) ∈ getReachableHexes map3 ⟨0, 0⟩ 2 :=
  ⟨by norm_num, (claim_C2_amended.1 map3 ⟨0, 0⟩ 2 (by norm_num)).2⟩

/-! ## A* optimality: basic lemmas -/

/-- One unfolding of the A* loop on a non-empty open list. -/
lemma aStarLoop_cons (m : GameMap) (goal : FieldCoords) (fuel : ℕ) (n0 : ANode)
    (rest0 : List ANode) (closed : List FieldCoords) :
    aStarLoop m goal (fuel + 1) (n0 :: rest0) closed =
      match (n0 :: rest0).get? (findMinIdx (n0 :: rest0)) with
      | Option.none => Option.none
      | Option.some current =>
        if current.coords = goal then Option.some (reconstructPath current)
        else
          aStarLoop m goal fuel
            ((getNeighbors current.coords).foldl
              (relaxNeighbor m goal (current.coords :: closed) current)
              ((n0 :: rest0).eraseIdx (findMinIdx (n0 :: rest0))))
            (current.coords :: closed) := rfl

/-- Removing the element at a known index is a permutation with that
element pulled to the front. -/
lemma get?_perm_eraseIdx {α : Type} (l : List α) (i : ℕ) (a : α)
    (h : l.get? i = Option.some a) : l.Perm (a :: l.eraseIdx i) := by
  have hi : i < l.length := by
    by_contra hge
    rw [List.get?_eq_none.mpr (le_of_not_lt hge)] at h
    exact Option.noConfusion h
  have ha : l[i] = a := by
    have := List.get?_eq_get (n := i) hi
    rw [this] at h
    exact Option.some.inj h
  have hsplit : l = l.take i ++ l[i] :: l.drop (i + 1) := by
    conv_lhs => rw [← List.take_append_drop i l]
    rw [List.drop_eq_getElem_cons hi]
  have hp : (l.take i ++ l[i] :: l.drop (i + 1)).Perm (l[i] :: (l.take i ++ l.drop (i + 1))) :=
    List.perm_middle
  rw [← hsplit] at hp
  rw [List.eraseIdx_eq_take_drop_succ, ← ha]
  exact hp

/-- The linear minimum scan: the returned index points into the list
region scanned so far, and the value there is minimal. -/
lemma findMinIdxAux_spec (l : List ANode) :
    ∀ (best i : ℕ) (bestF : WithTop ℚ),
      (findMinIdxAux best bestF i l = best ∧ ∀ n ∈ l, bestF ≤ n.fCost) ∨
      (∃ j : ℕ, ∃ hj : j < l.length, findMinIdxAux best bestF i l = i + j ∧
        (l.get ⟨j, hj⟩).fCost < bestF ∧ ∀ n ∈ l, (l.get ⟨j, hj⟩).fCost ≤ n.fCost) := by
  induction l with
  | nil =>
    intro best i bestF
    exact Or.inl ⟨rfl, by intro n hn; exact absurd hn (List.not_mem_nil n)⟩
  | cons hd tl ih =>
    intro best i bestF
    by_cases hlt : hd.fCost < bestF
    · have heq : findMinIdxAux best bestF i (hd :: tl) = findMinIdxAux i hd.fCost (i + 1) tl := by
        rw [show findMinIdxAux best bestF i (hd :: tl) =
          if hd.fCost < bestF then findMinIdxAux i hd.fCost (i + 1) tl
          else findMinIdxAux best bestF (i + 1) tl from rfl, if_pos hlt]
      rcases ih i (i + 1) hd.fCost with ⟨h1, h2⟩ | ⟨j, hj, h1, h2, h3⟩
      · refine Or.inr ⟨0, by simp, ?_, hlt, ?_⟩
        · rw [heq, h1]
          omega
        · intro n hn
          rcases List.mem_cons.mp hn with rfl | hn
          · exact le_refl _
          · exact h2 n hn
      · refine Or.inr ⟨j + 1, by simpa using hj, ?_, ?_, ?_⟩
        · rw [heq, h1]
          omega
        · exact lt_trans h2 hlt
        · intro n hn
          rcases List.mem_cons.mp hn with rfl | hn
          · exact le_of_lt h2
          · exact h3 n hn
    · have heq : findMinIdxAux best bestF i (hd :: tl) = findMinIdxAux best bestF (i + 1) tl := by
        rw [show findMinIdxAux best bestF i (hd :: tl) =
          if hd.fCost < bestF then findMinIdxAux i hd.fCost (i + 1) tl
          else findMinIdxAux best bestF (i + 1) tl from rfl, if_neg hlt]
      rcases ih best (i + 1) bestF with ⟨h1, h2⟩ | ⟨j, hj, h1, h2, h3⟩
      · refine Or.inl ⟨by rw [heq, h1], ?_⟩
        intro n hn
        rcases List.mem_cons.mp hn with rfl | hn
        · exact le_of_not_lt hlt
        · exact h2 n hn
      · refine Or.inr ⟨j + 1, by simpa using hj, ?_, h2, ?_⟩
        · rw [heq, h1]
          omega
        · intro n hn
          rcases List.mem_cons.mp hn with rfl | hn
          · exact le_trans (le_of_lt h2) (le_of_not_lt hlt)
          · exact h3 n hn

/-- findMinIdx selects an existing open node of minimal fCost. -/
lemma findMinIdx_spec (n0 : ANode) (rest : List ANode) :
    ∃ current, (n0 :: rest).get? (findMinIdx (n0 :: rest)) = Option.some current ∧
      ∀ n ∈ n0 :: rest, current.fCost ≤ n.fCost := by
  rw [show findMinIdx (n0 :: rest) = findMinIdxAux 0 n0.fCost 1 rest from rfl]
  rcases findMinIdxAux_spec rest 0 1 n0.fCost with ⟨h1, h2⟩ | ⟨j, hj, h1, h2, h3⟩
  · refine ⟨n0, by rw [h1]; rfl, ?_⟩
    intro n hn
    rcases List.mem_cons.mp hn with rfl | hn
    · exact le_refl _
    · exact h2 n hn
  · refine ⟨rest.get ⟨j, hj⟩, ?_, ?_⟩
    · rw [h1, show 1 + j = j + 1 from by omega, List.get?_cons_succ]
      exact List.get?_eq_get hj
    · intro n hn
      rcases List.mem_cons.mp hn with rfl | hn
      · exact le_of_lt h2
      · exact h3 n hn

/-- Setting an index to the value already stored there is a no-op. -/
lemma list_set_self {α : Type} (l : List α) (i : ℕ) (h : i < l.length) :
    l.set i l[i] = l := by
  apply List.ext_getElem
  · simp
  · intro j h1 h2
    by_cases hij : i = j
    · subst hij
      exact List.getElem_set_self _
    · exact List.getElem_set_ne hij _

/-- Consistency of the heuristic along a walkable path: the heuristic at
the start never exceeds the path cost plus the heuristic at the end. -/
lemma heuristic_descend (m : GameMap) (goal : FieldCoords) :
    ∀ (p : List FieldCoords) (a z : FieldCoords), IsWalkablePath m a z p →
      ((hexDistance a goal : ℚ) : WithTop ℚ) ≤
        pathCost m p + ((hexDistance z goal : ℚ) : WithTop ℚ) := by
  intro p
  induction p using List.reverseRecOn with
  | nil =>
    intro a z hp
    exact absurd rfl (iwp_ne_nil hp)
  | append_singleton l b ihl =>
    intro a z hp
    by_cases hl0 : l = []
    · subst hl0
      have haz : a = z := iwp_start_eq hp (by rfl)
      subst haz
      have hc : pathCost m ([] ++ [b]) = 0 := rfl
      rw [hc, zero_add]
    · have hlen : 2 ≤ (l ++ [b]).length := by
        cases l with
        | nil => exact absurd rfl hl0
        | cons x ls =>
          simp only [List.cons_append, List.length_cons, List.length_append,
            List.length_singleton]
          omega
      obtain ⟨q, y, hq, hqy, hstep⟩ := iwp_decompose hp hlen
      obtain ⟨hlq, hbveq⟩ := List.append_inj' hq rfl
      have hzb : z = b := by
        injection hbveq with h1
        exact h1.symm
      subst hzb
      have hql : IsWalkablePath m a y l := by
        rw [hlq]
        exact hqy
      have hcost : pathCost m (l ++ [z]) = pathCost m l + getMovementCost m y z := by
        rw [hlq]
        exact pathCost_snoc m q y z hqy.2.1
      have hhy := ihl a y hql
      have htri : hexDistance y goal ≤ 1 + hexDistance z goal := by
        have h1 := hexDistance_triangle y z goal
        rw [getNeighbors_dist_one hstep.1] at h1
        exact h1
      have hcoe : ((hexDistance y goal : ℚ) : WithTop ℚ) ≤
          1 + ((hexDistance z goal : ℚ) : WithTop ℚ) := by
        exact_mod_cast htri
      have hstep1 : (1 : WithTop ℚ) ≤ getMovementCost m y z := one_le_getMovementCost m y z
      calc ((hexDistance a goal : ℚ) : WithTop ℚ)
          ≤ pathCost m l + ((hexDistance y goal : ℚ) : WithTop ℚ) := hhy
        _ ≤ pathCost m l + (1 + ((hexDistance z goal : ℚ) : WithTop ℚ)) :=
            add_le_add_left hcoe _
        _ ≤ pathCost m l + (getMovementCost m y z + ((hexDistance z goal : ℚ) : WithTop ℚ)) :=
            add_le_add_left (add_le_add_right hstep1 _) _
        _ = pathCost m (l ++ [z]) + ((hexDistance z goal : ℚ) : WithTop ℚ) := by
            rw [hcost, add_assoc]

/-- Effect of one relaxNeighbor call on the open list: nodes stay
well-formed, every input node survives with unchanged coords and a gCost
that can only improve, a walkable non-closed processed neighbor ends up
relaxed, and the coords image is unchanged or extended by the fresh
neighbor. -/
lemma relaxNeighbor_spec (m : GameMap) (start goal : FieldCoords)
    (closed : List FieldCoords) (cur : ANode) (acc : List ANode) (nc : FieldCoords)
    (hcur : NodeOK m start goal cur) (hnc : nc ∈ getNeighbors cur.coords)
    (hacc : ∀ n ∈ acc, NodeOK m start goal n) :
    (∀ n ∈ relaxNeighbor m goal closed cur acc nc, NodeOK m start goal n) ∧
    (∀ n ∈ acc, ∃ n' ∈ relaxNeighbor m goal closed cur acc nc,
      n'.coords = n.coords ∧ n'.gCost ≤ n.gCost) ∧
    (WalkStep m cur.coords nc → ¬ nc ∈ closed →
      ∃ n' ∈ relaxNeighbor m goal closed cur acc nc, n'.coords = nc ∧
        n'.gCost ≤ cur.gCost + getMovementCost m cur.coords nc) ∧
    ((relaxNeighbor m goal closed cur acc nc).map ANode.coords = acc.map ANode.coords ∨
      ((relaxNeighbor m goal closed cur acc nc).map ANode.coords
          = acc.map ANode.coords ++ [nc] ∧ ¬ nc ∈ acc.map ANode.coords ∧ ¬ nc ∈ closed)) := by
  by_cases h1 : ¬(isValidCoord m nc = true) ∨ nc ∈ closed
  · have hrel : relaxNeighbor m goal closed cur acc nc = acc := by
      unfold relaxNeighbor
      rw [if_pos h1]
    rw [hrel]
    refine ⟨hacc, ?_, ?_, Or.inl rfl⟩
    · intro n hn
      exact ⟨n, hn, rfl, le_refl _⟩
    · intro hstep hncl
      rcases h1 with h1 | h1
      · exact absurd hstep.2.1 h1
      · exact absurd h1 hncl
  · by_cases h2 : ¬(isWalkable m nc = true)
    · have hrel : relaxNeighbor m goal closed cur acc nc = acc := by
        unfold relaxNeighbor
        rw [if_neg h1, if_pos h2]
      rw [hrel]
      refine ⟨hacc, ?_, ?_, Or.inl rfl⟩
      · intro n hn
        exact ⟨n, hn, rfl, le_refl _⟩
      · intro hstep _
        exact absurd hstep.2.2 h2
    · have hval : isValidCoord m nc = true := by
        by_contra hv
        exact h1 (Or.inl hv)
      have hncl : ¬ nc ∈ closed := by
        intro hc
        exact h1 (Or.inr hc)
      have hwalk : isWalkable m nc = true := not_not.mp h2
      have hnew : NodeOK m start goal
          (ANode.mk nc (cur.gCost + getMovementCost m cur.coords nc)
            ((hexDistance nc goal : ℚ) : WithTop ℚ)
            (cur.gCost + getMovementCost m cur.coords nc +
              ((hexDistance nc goal : ℚ) : WithTop ℚ)) (Option.some cur)) := by
        refine ⟨?_, ?_, rfl, rfl⟩
        · show IsWalkablePath m start nc (reconstructPath cur ++ [nc])
          exact iwp_snoc hcur.1 ⟨hnc, hval, hwalk⟩
        · show pathCost m (reconstructPath cur ++ [nc]) =
            cur.gCost + getMovementCost m cur.coords nc
          rw [pathCost_snoc m _ cur.coords nc hcur.1.2.1, hcur.2.1]
      cases hidx : acc.findIdx? (fun node => decide (node.coords = nc)) with
      | none =>
        have hrel : relaxNeighbor m goal closed cur acc nc =
            acc ++ [ANode.mk nc (cur.gCost + getMovementCost m cur.coords nc)
              ((hexDistance nc goal : ℚ) : WithTop ℚ)
              (cur.gCost + getMovementCost m cur.coords nc +
                ((hexDistance nc goal : ℚ) : WithTop ℚ)) (Option.some cur)] := by
          unfold relaxNeighbor
          rw [if_neg h1, if_neg h2]
          dsimp only
          rw [hidx]
        have hfresh : ¬ nc ∈ acc.map ANode.coords := by
          intro hmem
          obtain ⟨n, hn, hcoords⟩ := List.mem_map.mp hmem
          have hfalse := List.findIdx?_eq_none_iff.mp hidx n hn
          rw [hcoords] at hfalse
          simp at hfalse
        rw [hrel]
        refine ⟨?_, ?_, ?_, Or.inr ⟨by simp [ANode.coords], hfresh, hncl⟩⟩
        · intro n hn
          rcases List.mem_append.mp hn with hn | hn
          · exact hacc n hn
          · rw [List.mem_singleton.mp hn]
            exact hnew
        · intro n hn
          exact ⟨n, List.mem_append_left _ hn, rfl, le_refl _⟩
        · intro _ _
          exact ⟨_, List.mem_append_right _ (List.mem_singleton_self _), rfl, le_refl _⟩
      | some j =>
        obtain ⟨hj, hpred, hearlier⟩ := List.findIdx?_eq_some_iff_getElem.mp hidx
        have hget : acc.get? j = Option.some acc[j] := List.get?_eq_get hj
        have hjc : acc[j].coords = nc := by
          simpa using hpred
        have hmemj : acc[j] ∈ acc := List.getElem_mem hj
        by_cases himp : cur.gCost + getMovementCost m cur.coords nc < acc[j].gCost
        · have hrel : relaxNeighbor m goal closed cur acc nc =
              acc.set j (ANode.mk nc (cur.gCost + getMovementCost m cur.coords nc)
                acc[j].hCost
                (cur.gCost + getMovementCost m cur.coords nc + acc[j].hCost)
                (Option.some cur)) := by
            unfold relaxNeighbor
            rw [if_neg h1, if_neg h2]
            dsimp only
            rw [hidx]
            dsimp only
            rw [hget]
            dsimp only
            rw [if_pos himp]
          have hjh : acc[j].hCost = ((hexDistance nc goal : ℚ) : WithTop ℚ) := by
            have hh := (hacc _ hmemj).2.2.1
            rw [hjc] at hh
            exact hh
          have hnew2 : NodeOK m start goal
              (ANode.mk nc (cur.gCost + getMovementCost m cur.coords nc)
                acc[j].hCost
                (cur.gCost + getMovementCost m cur.coords nc + acc[j].hCost)
                (Option.some cur)) := by
            rw [hjh]
            exact hnew
          rw [hrel]
          refine ⟨?_, ?_, ?_, Or.inl ?_⟩
          · intro n hn
            obtain ⟨i, hi, hin⟩ := List.mem_iff_getElem.mp hn
            by_cases hij : j = i
            · subst hij
              rw [List.getElem_set_self _] at hin
              rw [← hin]
              exact hnew2
            · rw [List.getElem_set_ne hij _] at hin
              exact hacc n (hin ▸ List.getElem_mem (by simpa using hi))
          · intro n hn
            obtain ⟨i, hi, hin⟩ := List.mem_iff_getElem.mp hn
            by_cases hij : j = i
            · subst hij
              refine ⟨ANode.mk nc (cur.gCost + getMovementCost m cur.coords nc)
                acc[j].hCost (cur.gCost + getMovementCost m cur.coords nc + acc[j].hCost)
                (Option.some cur), ?_, ?_, ?_⟩
              · exact List.mem_iff_getElem.mpr ⟨j, by simpa using hj, List.getElem_set_self _⟩
              · rw [← hin]
                show nc = acc[j].coords
                exact hjc.symm
              · rw [← hin]
                exact le_of_lt himp
            · refine ⟨n, ?_, rfl, le_refl _⟩
              exact List.mem_iff_getElem.mpr ⟨i, by simpa using hi,
                by rw [List.getElem_set_ne hij _]; exact hin⟩
          · intro _ _
            exact ⟨ANode.mk nc (cur.gCost + getMovementCost m cur.coords nc)
              acc[j].hCost (cur.gCost + getMovementCost m cur.coords nc + acc[j].hCost)
              (Option.some cur),
              List.mem_iff_getElem.mpr ⟨j, by simpa using hj, List.getElem_set_self _⟩,
              rfl, le_refl _⟩
          · rw [List.map_set]
            have hjlt : j < (acc.map ANode.coords).length := by simpa using hj
            have hjmap : (acc.map ANode.coords).get ⟨j, hjlt⟩ = nc := by
              rw [List.get_eq_getElem, List.getElem_map]
              exact hjc
            rw [show (ANode.mk nc (cur.gCost + getMovementCost m cur.coords nc)
                acc[j].hCost (cur.gCost + getMovementCost m cur.coords nc + acc[j].hCost)
                (Option.some cur)).coords = nc from rfl, ← hjmap, List.get_eq_getElem]
            exact list_set_self _ j hjlt
        · have hrel : relaxNeighbor m goal closed cur acc nc = acc := by
            unfold relaxNeighbor
            rw [if_neg h1, if_neg h2]
            dsimp only
            rw [hidx]
            dsimp only
            rw [hget]
            dsimp only
            rw [if_neg himp]
          rw [hrel]
          refine ⟨hacc, ?_, ?_, Or.inl rfl⟩
          · intro n hn
            exact ⟨n, hn, rfl, le_refl _⟩
          · intro _ _
            exact ⟨acc[j], hmemj, hjc, le_of_not_lt himp⟩

/-- Effect of folding relaxNeighbor over the neighbors of the current
node: well-formedness, survival, relaxation of every walkable non-closed
neighbor, provenance of coords, and preservation of coords-nodup. -/
lemma aStarFold_spec (m : GameMap) (start goal : FieldCoords)
    (closed : List FieldCoords) (cur : ANode) (hcur : NodeOK m start goal cur) :
    ∀ (ns : List FieldCoords) (acc : List ANode),
      (∀ nc ∈ ns, nc ∈ getNeighbors cur.coords) →
      (∀ n ∈ acc, NodeOK m start goal n) →
      (∀ n ∈ ns.foldl (relaxNeighbor m goal closed cur) acc, NodeOK m start goal n) ∧
      (∀ n ∈ acc, ∃ n' ∈ ns.foldl (relaxNeighbor m goal closed cur) acc,
        n'.coords = n.coords ∧ n'.gCost ≤ n.gCost) ∧
      (∀ nc ∈ ns, WalkStep m cur.coords nc → ¬ nc ∈ closed →
        ∃ n' ∈ ns.foldl (relaxNeighbor m goal closed cur) acc, n'.coords = nc ∧
          n'.gCost ≤ cur.gCost + getMovementCost m cur.coords nc) ∧
      (∀ x ∈ (ns.foldl (relaxNeighbor m goal closed cur) acc).map ANode.coords,
        x ∈ acc.map ANode.coords ∨ (x ∈ ns ∧ ¬ x ∈ closed)) ∧
      ((acc.map ANode.coords).Nodup →
        ((ns.foldl (relaxNeighbor m goal closed cur) acc).map ANode.coords).Nodup) := by
  intro ns
  induction ns with
  | nil =>
    intro acc _ hacc
    refine ⟨hacc, ?_, ?_, ?_, fun h => h⟩
    · intro n hn
      exact ⟨n, hn, rfl, le_refl _⟩
    · intro nc hnc
      exact absurd hnc (List.not_mem_nil nc)
    · intro x hx
      exact Or.inl hx
  | cons nc rest ih =>
    intro acc hns hacc
    have hncm : nc ∈ getNeighbors cur.coords := hns nc (List.mem_cons_self nc rest)
    obtain ⟨s1, s2, s3, s4⟩ := relaxNeighbor_spec m start goal closed cur acc nc hcur hncm hacc
    have hrest : ∀ x ∈ rest, x ∈ getNeighbors cur.coords := by
      intro x hx
      exact hns x (List.mem_cons_of_mem nc hx)
    obtain ⟨f1, f2, f3, f4, f5⟩ := ih (relaxNeighbor m goal closed cur acc nc) hrest s1
    rw [List.foldl_cons]
    refine ⟨f1, ?_, ?_, ?_, ?_⟩
    · intro n hn
      obtain ⟨n1, hn1, hc1, hg1⟩ := s2 n hn
      obtain ⟨n2, hn2, hc2, hg2⟩ := f2 n1 hn1
      exact ⟨n2, hn2, hc2.trans hc1, hg2.trans hg1⟩
    · intro x hx hstep hxcl
      rcases List.mem_cons.mp hx with rfl | hx
      · obtain ⟨n1, hn1, hc1, hg1⟩ := s3 hstep hxcl
        obtain ⟨n2, hn2, hc2, hg2⟩ := f2 n1 hn1
        exact ⟨n2, hn2, hc2.trans hc1, hg2.trans hg1⟩
      · exact f3 x hx hstep hxcl
    · intro x hx
      rcases f4 x hx with hx1 | ⟨hx1, hx2⟩
      · rcases s4 with h | ⟨hmap, _, hclo⟩
        · rw [h] at hx1
          exact Or.inl hx1
        · rw [hmap] at hx1
          rcases List.mem_append.mp hx1 with hx1 | hx1
          · exact Or.inl hx1
          · rw [List.mem_singleton.mp hx1]
            exact Or.inr ⟨List.mem_cons_self nc rest, hclo⟩
      · exact Or.inr ⟨List.mem_cons_of_mem nc hx1, hx2⟩
    · intro hnd
      apply f5
      rcases s4 with h | ⟨hmap, hfr, _⟩
      · rw [h]
        exact hnd
      · rw [hmap, List.nodup_append]
        refine ⟨hnd, List.nodup_singleton nc, ?_⟩
        intro x hx1 hx2
        rw [List.mem_singleton.mp hx2] at hx1
        exact hfr hx1

/-- Frontier covering: every walkable path from start is accounted for by
the invariant — at its closed endpoint via the ghost bound, or by an open
node at the endpoint with a better gCost, or by an open node whose fCost
is below the path cost plus the endpoint heuristic. -/
lemma astar_frontier (m : GameMap) (start goal : FieldCoords)
    (D : FieldCoords → WithTop ℚ) (openL : List ANode) (closed : List FieldCoords)
    (inv : AInv m start goal D openL closed) :
    ∀ (p : List FieldCoords) (z : FieldCoords), IsWalkablePath m start z p →
      (z ∈ closed ∧ D z ≤ pathCost m p) ∨
      (∃ n ∈ openL, n.coords = z ∧ n.gCost ≤ pathCost m p) ∨
      (∃ n ∈ openL, n.fCost ≤ pathCost m p + ((hexDistance z goal : ℚ) : WithTop ℚ)) := by
  intro p
  induction p using List.reverseRecOn with
  | nil =>
    intro z hp
    exact absurd rfl (iwp_ne_nil hp)
  | append_singleton l b ihl =>
    intro z hp
    by_cases hcl : z ∈ closed
    · exact Or.inl ⟨hcl, inv.closedOpt z hcl _ hp⟩
    by_cases hl0 : l = []
    · subst hl0
      have hsz : start = z := iwp_start_eq hp (by rfl)
      rcases inv.startCov with hc | ⟨n, hn, hcoords, hg⟩
      · rw [hsz] at hc
        exact absurd hc hcl
      · refine Or.inr (Or.inl ⟨n, hn, hcoords.trans hsz, ?_⟩)
        have hc0 : pathCost m ([] ++ [b]) = 0 := rfl
        rw [hc0]
        exact hg
    · have hlen : 2 ≤ (l ++ [b]).length := by
        cases l with
        | nil => exact absurd rfl hl0
        | cons x ls =>
          simp only [List.cons_append, List.length_cons, List.length_append,
            List.length_singleton]
          omega
      obtain ⟨q, y, hq, hqy, hstep⟩ := iwp_decompose hp hlen
      obtain ⟨hlq, hbveq⟩ := List.append_inj' hq rfl
      have hzb : z = b := by
        injection hbveq with h1
        exact h1.symm
      subst hzb
      have hql : IsWalkablePath m start y l := by
        rw [hlq]
        exact hqy
      have hcost : pathCost m (l ++ [z]) = pathCost m l + getMovementCost m y z := by
        rw [hlq]
        exact pathCost_snoc m q y z hqy.2.1
      have htri : ((hexDistance y goal : ℚ) : WithTop ℚ) ≤
          getMovementCost m y z + ((hexDistance z goal : ℚ) : WithTop ℚ) := by
        have h1 := hexDistance_triangle y z goal
        rw [getNeighbors_dist_one hstep.1] at h1
        have h2 : ((hexDistance y goal : ℚ) : WithTop ℚ) ≤
            1 + ((hexDistance z goal : ℚ) : WithTop ℚ) := by
          exact_mod_cast h1
        exact h2.trans (add_le_add_right (one_le_getMovementCost m y z) _)
      rcases ihl y hql with ⟨hyc, hyd⟩ | ⟨n, hn, hcoords, hg⟩ | ⟨n, hn, hf⟩
      · rcases inv.closedRelaxed y hyc z hstep with ⟨hzc, hzd⟩ | ⟨n, hn, hcoords, hg⟩
        · refine Or.inl ⟨hzc, ?_⟩
          rw [hcost]
          exact hzd.trans (add_le_add_right hyd _)
        · refine Or.inr (Or.inl ⟨n, hn, hcoords, ?_⟩)
          rw [hcost]
          exact hg.trans (add_le_add_right hyd _)
      · refine Or.inr (Or.inr ⟨n, hn, ?_⟩)
        have hfn : n.fCost = n.gCost + n.hCost := (inv.nodesOK n hn).2.2.2
        have hhn : n.hCost = ((hexDistance y goal : ℚ) : WithTop ℚ) := by
          have hh := (inv.nodesOK n hn).2.2.1
          rw [hcoords] at hh
          exact hh
        rw [hfn, hhn, hcost]
        calc n.gCost + ((hexDistance y goal : ℚ) : WithTop ℚ)
            ≤ pathCost m l + (getMovementCost m y z + ((hexDistance z goal : ℚ) : WithTop ℚ)) :=
              add_le_add hg htri
          _ = pathCost m l + getMovementCost m y z + ((hexDistance z goal : ℚ) : WithTop ℚ) := by
              rw [add_assoc]
      · refine Or.inr (Or.inr ⟨n, hn, ?_⟩)
        rw [hcost]
        calc n.fCost ≤ pathCost m l + ((hexDistance y goal : ℚ) : WithTop ℚ) := hf
          _ ≤ pathCost m l + (getMovementCost m y z + ((hexDistance z goal : ℚ) : WithTop ℚ)) :=
              add_le_add_left htri _
          _ = pathCost m l + getMovementCost m y z + ((hexDistance z goal : ℚ) : WithTop ℚ) := by
              rw [add_assoc]

/-- A minimal-fCost open node already carries an optimal gCost: no
walkable path to its coords is cheaper. -/
lemma astar_pop_le (m : GameMap) (start goal : FieldCoords)
    (D : FieldCoords → WithTop ℚ) (openL : List ANode) (closed : List FieldCoords)
    (inv : AInv m start goal D openL closed) (current : ANode) (hcur : current ∈ openL)
    (hmin : ∀ n ∈ openL, current.fCost ≤ n.fCost)
    (p : List FieldCoords) (hp : IsWalkablePath m start current.coords p) :
    current.gCost ≤ pathCost m p := by
  have hok := inv.nodesOK current hcur
  have hfin : current.fCost =
      current.gCost + ((hexDistance current.coords goal : ℚ) : WithTop ℚ) := by
    rw [hok.2.2.2, hok.2.2.1]
  have hne : ((hexDistance current.coords goal : ℚ) : WithTop ℚ) ≠ ⊤ := WithTop.coe_ne_top
  rcases astar_frontier m start goal D openL closed inv p current.coords hp with
    ⟨hc, _⟩ | ⟨n, hn, hcoords, hg⟩ | ⟨n, hn, hf⟩
  · exact absurd hc (inv.openNotClosed current hcur)
  · have hs := hmin n hn
    have hfn : n.fCost = n.gCost + ((hexDistance current.coords goal : ℚ) : WithTop ℚ) := by
      rw [(inv.nodesOK n hn).2.2.2, (inv.nodesOK n hn).2.2.1, hcoords]
    rw [hfin, hfn] at hs
    exact ((WithTop.add_le_add_iff_right hne).mp hs).trans hg
  · have hs := hmin n hn
    rw [hfin] at hs
    exact (WithTop.add_le_add_iff_right hne).mp (hs.trans hf)

/-- One iteration of the A* loop preserves the invariant after popping a
non-goal minimal node, closing its coords and relaxing its neighbors. -/
lemma astar_step_preserve (m : GameMap) (start goal : FieldCoords)
    (D : FieldCoords → WithTop ℚ) (openL : List ANode) (closed : List FieldCoords)
    (inv : AInv m start goal D openL closed)
    (current : ANode) (ci : ℕ) (hget : openL.get? ci = Option.some current)
    (hmin : ∀ n ∈ openL, current.fCost ≤ n.fCost)
    (hng : current.coords ≠ goal) :
    AInv m start goal (updD D current.coords current.gCost)
      ((getNeighbors current.coords).foldl
        (relaxNeighbor m goal (current.coords :: closed) current) (openL.eraseIdx ci))
      (current.coords :: closed) := by
  have hcurm : current ∈ openL := List.get?_mem hget
  have hperm : openL.Perm (current :: openL.eraseIdx ci) := get?_perm_eraseIdx openL ci current hget
  have hpermmap : (openL.map ANode.coords).Perm
      (current.coords :: (openL.eraseIdx ci).map ANode.coords) := by
    have hp := hperm.map ANode.coords
    simpa using hp
  have hnodup2 : (current.coords :: (openL.eraseIdx ci).map ANode.coords).Nodup :=
    (hpermmap.nodup_iff).mp inv.openNodup
  have hcurfresh : ¬ current.coords ∈ (openL.eraseIdx ci).map ANode.coords :=
    (List.nodup_cons.mp hnodup2).1
  have hrestnodup : ((openL.eraseIdx ci).map ANode.coords).Nodup :=
    (List.nodup_cons.mp hnodup2).2
  have hmemrest : ∀ n ∈ openL.eraseIdx ci, n ∈ openL := by
    intro n hn
    exact hperm.mem_iff.mpr (List.mem_cons_of_mem _ hn)
  have hcurok : NodeOK m start goal current := inv.nodesOK current hcurm
  have hrestok : ∀ n ∈ openL.eraseIdx ci, NodeOK m start goal n := by
    intro n hn
    exact inv.nodesOK n (hmemrest n hn)
  have hccnotcl : ¬ current.coords ∈ closed := inv.openNotClosed current hcurm
  obtain ⟨f1, f2, f3, f4, f5⟩ := aStarFold_spec m start goal (current.coords :: closed)
    current hcurok (getNeighbors current.coords) (openL.eraseIdx ci)
    (fun nc hnc => hnc) hrestok
  refine ⟨f1, f5 hrestnodup, ?_, ?_, ?_, ?_, ?_⟩
  · intro n hn hmem
    rcases f4 n.coords (List.mem_map_of_mem ANode.coords hn) with hx | ⟨hx1, hx2⟩
    · rcases List.mem_cons.mp hmem with heq | hmem2
      · rw [heq] at hx
        exact hcurfresh hx
      · obtain ⟨n0, hn0, hnc0⟩ := List.mem_map.mp hx
        exact inv.openNotClosed n0 (hmemrest n0 hn0) (hnc0 ▸ hmem2)
    · exact hx2 hmem
  · intro hmem
    rcases List.mem_cons.mp hmem with heq | hmem2
    · exact hng heq.symm
    · exact inv.goalOpen hmem2
  · rcases inv.startCov with hc | ⟨n, hn, hcoords, hg⟩
    · exact Or.inl (List.mem_cons_of_mem _ hc)
    · rcases List.mem_cons.mp (hperm.mem_iff.mp hn) with heq | hn2
      · left
        rw [← hcoords, heq]
        exact List.mem_cons_self _ _
      · obtain ⟨n', hn', hc', hg'⟩ := f2 n hn2
        exact Or.inr ⟨n', hn', hc'.trans hcoords, hg'.trans hg⟩
  · intro c hc p hp
    rcases List.mem_cons.mp hc with heq | hc2
    · subst heq
      have hDc : updD D current.coords current.gCost current.coords = current.gCost := by
        unfold updD
        rw [if_pos rfl]
      rw [hDc]
      exact astar_pop_le m start goal D openL closed inv current hcurm hmin p hp
    · have hcne : c ≠ current.coords := by
        intro hceq
        rw [hceq] at hc2
        exact hccnotcl hc2
      have hDc : updD D current.coords current.gCost c = D c := by
        unfold updD
        rw [if_neg hcne]
      rw [hDc]
      exact inv.closedOpt c hc2 p hp
  · intro c hc w hstep
    rcases List.mem_cons.mp hc with heq | hc2
    · subst heq
      have hDc : updD D current.coords current.gCost current.coords = current.gCost := by
        unfold updD
        rw [if_pos rfl]
      have hwne : w ≠ current.coords := by
        intro hw
        have h2 := mem_getNeighbors_iff.mp hstep.1
        rw [hw, hexDistNum_self] at h2
        exact absurd h2 (by decide)
      have hwD : updD D current.coords current.gCost w = D w := by
        unfold updD
        rw [if_neg hwne]
      by_cases hwcl : w ∈ closed
      · refine Or.inl ⟨List.mem_cons_of_mem _ hwcl, ?_⟩
        rw [hDc, hwD]
        have hpath : IsWalkablePath m start w (reconstructPath current ++ [w]) :=
          iwp_snoc hcurok.1 hstep
        have hpc : pathCost m (reconstructPath current ++ [w]) =
            current.gCost + getMovementCost m current.coords w := by
          rw [pathCost_snoc m _ current.coords w hcurok.1.2.1, hcurok.2.1]
        have hle := inv.closedOpt w hwcl _ hpath
        rw [hpc] at hle
        exact hle
      · have hwcl2 : ¬ w ∈ current.coords :: closed := by
          intro hmem
          rcases List.mem_cons.mp hmem with h | h
          · exact hwne h
          · exact hwcl h
        obtain ⟨n', hn', hc', hg'⟩ := f3 w hstep.1 hstep hwcl2
        refine Or.inr ⟨n', hn', hc', ?_⟩
        rw [hDc]
        exact hg'
    · have hcne : c ≠ current.coords := by
        intro hceq
        rw [hceq] at hc2
        exact hccnotcl hc2
      have hDc : updD D current.coords current.gCost c = D c := by
        unfold updD
        rw [if_neg hcne]
      rcases inv.closedRelaxed c hc2 w hstep with ⟨hwc, hwd⟩ | ⟨n, hn, hnc, hng2⟩
      · have hwne : w ≠ current.coords := by
          intro hw
          rw [hw] at hwc
          exact hccnotcl hwc
        have hwD : updD D current.coords current.gCost w = D w := by
          unfold updD
          rw [if_neg hwne]
        refine Or.inl ⟨List.mem_cons_of_mem _ hwc, ?_⟩
        rw [hDc, hwD]
        exact hwd
      · rcases List.mem_cons.mp (hperm.mem_iff.mp hn) with heqn | hn2
        · refine Or.inl ⟨?_, ?_⟩
          · rw [← hnc, heqn]
            exact List.mem_cons_self _ _
          · have hwD : updD D current.coords current.gCost w = current.gCost := by
              unfold updD
              rw [if_pos (by rw [← hnc, heqn])]
            rw [hwD, hDc, ← heqn]
            exact hng2
        · obtain ⟨n', hn', hc', hg'⟩ := f2 n hn2
          refine Or.inr ⟨n', hn', hc'.trans hnc, ?_⟩
          rw [hDc]
          exact hg'.trans hng2

/-- The initial A* state (start node only, nothing closed) satisfies the
invariant, with the trivial ghost distance map. -/
lemma astar_init (m : GameMap) (start goal : FieldCoords) :
    AInv m start goal (fun _ => ⊤)
      [ANode.mk start 0 ((hexDistance start goal : ℚ) : WithTop ℚ)
        (0 + ((hexDistance start goal : ℚ) : WithTop ℚ)) Option.none] [] := by
  refine ⟨?_, ?_, ?_, ?_, ?_, ?_, ?_⟩
  · intro n hn
    rw [List.mem_singleton.mp hn]
    refine ⟨?_, ?_, rfl, rfl⟩
    · show IsWalkablePath m start start [start]
      exact iwp_single m start
    · show pathCost m [start] = (0 : WithTop ℚ)
      rfl
  · simp
  · intro n _ hmem
    exact absurd hmem (List.not_mem_nil _)
  · exact List.not_mem_nil goal
  · exact Or.inr ⟨_, List.mem_singleton_self _, rfl, le_refl _⟩
  · intro c hc
    exact absurd hc (List.not_mem_nil c)
  · intro c hc
    exact absurd hc (List.not_mem_nil c)

/-- Soundness and optimality of the A* loop under the invariant: any
returned path is a walkable start-to-goal path of minimal cost among all
walkable paths. -/
lemma aStarLoop_sound (m : GameMap) (start goal : FieldCoords) :
    ∀ (fuel : ℕ) (openL : List ANode) (closed : List FieldCoords)
      (D : FieldCoords → WithTop ℚ), AInv m start goal D openL closed →
      ∀ path, aStarLoop m goal fuel openL closed = Option.some path →
        IsWalkablePath m start goal path ∧
        ∀ p, IsWalkablePath m start goal p → pathCost m path ≤ pathCost m p := by
  intro fuel
  induction fuel with
  | zero =>
    intro openL closed D _ path hrun
    have h0 : aStarLoop m goal 0 openL closed = Option.none := rfl
    rw [h0] at hrun
    exact Option.noConfusion hrun
  | succ f ih =>
    intro openL closed D inv path hrun
    cases openL with
    | nil =>
      have h0 : aStarLoop m goal (f + 1) [] closed = Option.none := rfl
      rw [h0] at hrun
      exact Option.noConfusion hrun
    | cons n0 rest0 =>
      rw [aStarLoop_cons] at hrun
      obtain ⟨current, hget, hmin⟩ := findMinIdx_spec n0 rest0
      rw [hget] at hrun
      dsimp only at hrun
      by_cases hgoal : current.coords = goal
      · rw [if_pos hgoal] at hrun
        have hpath : path = reconstructPath current := (Option.some.inj hrun).symm
        have hcurm : current ∈ n0 :: rest0 := List.get?_mem hget
        have hok := inv.nodesOK current hcurm
        subst hpath
        constructor
        · rw [← hgoal]
          exact hok.1
        · intro p hp
          rw [hok.2.1]
          refine astar_pop_le m start goal D _ closed inv current hcurm hmin p ?_
          rw [hgoal]
          exact hp
      · rw [if_neg hgoal] at hrun
        exact ih _ _ (updD D current.coords current.gCost)
          (astar_step_preserve m start goal D (n0 :: rest0) closed inv current
            (findMinIdx (n0 :: rest0)) hget hmin hgoal) path hrun

/-- C1: for every GameMap and in-bounds coordinates start ≠ goal, if
findPath(start, goal) returns a path, then its first element is start,
its last element is goal, every consecutive pair is hex-adjacent
(hexDistance = 1) with a walkable — hence non-water — destination field,
and the path's total movement cost (per step the destination terrain's
base cost plus 0.5 per unit of height difference, as computed by
getMovementCost) is minimal among all walkable paths from start to
goal. -/
theorem claim_C1_astar_optimal (m : GameMap) (start goal : FieldCoords)
    (path : List FieldCoords)
    (hs : isValidCoord m start = true) (hg : isValidCoord m goal = true)
    (hne : start ≠ goal) (hfound : findPath m start goal = Option.some path) :
    path.head? = Option.some start ∧ path.getLast? = Option.some goal ∧
    List.Chain' (fun a b => hexDistance a b = 1 ∧ isWalkable m b = true) path ∧
    ∀ p, IsWalkablePath m start goal p → pathCost m path ≤ pathCost m p := by
  have hrun : aStarLoop m goal maxIterations
      [ANode.mk start 0 ((hexDistance start goal : ℚ) : WithTop ℚ)
        (0 + ((hexDistance start goal : ℚ) : WithTop ℚ)) Option.none] [] =
      Option.some path := by
    unfold findPath at hfound
    rw [if_neg (by simp [hs, hg]), if_neg hne] at hfound
    exact hfound
  obtain ⟨hwalk, hminp⟩ := aStarLoop_sound m start goal maxIterations _ _ _
    (astar_init m start goal) path hrun
  refine ⟨hwalk.1, hwalk.2.1, ?_, hminp⟩
  exact List.Chain'.imp (fun a b hab => ⟨getNeighbors_dist_one hab.1, hab.2.2⟩) hwalk.2.2

/-- Witness for C1 on the 3×3 grass map: findPath (0,0)→(2,0) returns
the straight path, whose cost is minimal; in particular it does not
exceed the cost of the concrete walkable detour over (0,1),(1,1). -/
theorem claim_C1_witness :
    isValidCoord map3 ⟨0, 0⟩ = true ∧ isValidCoord map3 ⟨2, 0⟩ = true ∧
    (⟨0, 0⟩ : FieldCoords) ≠ ⟨2, 0⟩ ∧
    findPath map3 ⟨0, 0⟩ ⟨2, 0⟩ = Option.some [⟨0, 0⟩, ⟨1, 0⟩, ⟨2, 0⟩] ∧
    ([⟨0, 0⟩, ⟨1, 0⟩, ⟨2, 0⟩] : List FieldCoords).head? = Option.some ⟨0, 0⟩ ∧
    IsWalkablePath map3 ⟨0, 0⟩ ⟨2, 0⟩ [⟨0, 0⟩, ⟨0, 1⟩, ⟨1, 1⟩, ⟨2, 0⟩] ∧
    pathCost map3 [⟨0, 0⟩, ⟨1, 0⟩, ⟨2, 0⟩] ≤
      pathCost map3 [⟨0, 0⟩, ⟨0, 1⟩, ⟨1, 1⟩, ⟨2, 0⟩] := by
  have hfp : findPath map3 ⟨0, 0⟩ ⟨2, 0⟩ = Option.some [⟨0, 0⟩, ⟨1, 0⟩, ⟨2, 0⟩] := by
    with_unfolding_all decide
  have hW : ∀ a b : FieldCoords, b ∈ getNeighbors a → isValidCoord map3 b = true →
      isWalkable map3 b = true → WalkStep map3 a b := fun a b h1 h2 h3 => ⟨h1, h2, h3⟩
  have hdetour : IsWalkablePath map3 ⟨0, 0⟩ ⟨2, 0⟩ [⟨0, 0⟩, ⟨0, 1⟩, ⟨1, 1⟩, ⟨2, 0⟩] := by
    refine ⟨rfl, rfl, ?_⟩
    refine List.chain'_cons.mpr ⟨hW _ _ (by decide) (by decide) (by decide), ?_⟩
    refine List.chain'_cons.mpr ⟨hW _ _ (by decide) (by decide) (by decide), ?_⟩
    refine List.chain'_cons.mpr ⟨hW _ _ (by decide) (by decide) (by decide), ?_⟩
    exact List.chain'_singleton _
  have hmain := claim_C1_astar_optimal map3 ⟨0, 0⟩ ⟨2, 0⟩ [⟨0, 0⟩, ⟨1, 0⟩, ⟨2, 0⟩]
    (by decide) (by decide) (by decide) hfp
  exact ⟨by decide, by decide, by decide, hfp, hmain.1, hdetour, hmain.2.2.2 _ hdetour⟩
